import Mathlib

/-!
Shallow embedding of the Huffman coder in `src/main.cpp`.

Conventions of the embedding:
* A C++ `Node*` is a value of the inductive type `Huffman.Node`; the
  constructor `Node.nil` models the null pointer, `Node.node ch freq l r`
  models a heap-allocated node with its four fields.
* C++ `std::string` values are modelled as `List Char`.
* The `unordered_map<char, string>` of codes is modelled as the association
  list of its insertions (every tree the program builds has pairwise distinct
  leaf symbols, so insertion order never overwrites an earlier key).
* `codes.at(ch)` throws on a missing key and `pq.top()` on an empty
  `priority_queue` is undefined behaviour; both are modelled by `Option`,
  with `none` marking the throwing / undefined outcome.  Likewise `decode`
  dereferences `current->left` / `current->right` without a null check; a
  run that dereferences a null pointer is modelled as returning `none`.
* `std::priority_queue` extraction order among nodes of equal frequency is
  unspecified by the spec (any minimum-frequency extraction is allowed); the
  embedding extracts the first-inserted node among those of minimal
  frequency, and models the hash-map iteration order that seeds the queue as
  first-insertion order.
-/

namespace Huffman

/-- The C++ `struct Node` (src/main.cpp:14-23): a symbol, a frequency and two
child pointers.  `nil` stands for the null pointer. -/
inductive Node where
  | nil : Node
  | node (ch : Char) (freq : Nat) (left right : Node) : Node
deriving DecidableEq, Repr

/-- The placeholder symbol `'\0'` stored in merged internal nodes
(src/main.cpp:122). -/
def nulChar : Char := Char.ofNat 0

/-- Frequency field of a node; 0 for the null pointer (never read on null by
the program). -/
def freqOf : Node → Nat
  | .nil => 0
  | .node _ f _ _ => f

/-- The C++ test `!node->left && !node->right` identifying a leaf
(src/main.cpp:41, 79). -/
def isLeaf : Node → Bool
  | .node _ _ .nil .nil => true
  | _ => false

/-- The comparator `struct Compare` (src/main.cpp:26-32): `Compare a b` is
`a->freq > b->freq`, i.e. `a` has lower priority than `b`. -/
def Compare (a b : Node) : Bool := freqOf b < freqOf a

/-- `buildCodes` (src/main.cpp:37-51): depth-first traversal accumulating the
path string, recording `symbol → path` at each leaf; a null node contributes
nothing, a leaf records its code, otherwise recurse left with `code + "0"`
and right with `code + "1"`.  The accumulated `unordered_map` is modelled as
the association list of insertions. -/
def buildCodes : Node → List Char → List (Char × List Char)
  | .nil, _ => []
  | .node c _ .nil .nil, code => [(c, code)]
  | .node _ _ l r, code =>
      buildCodes l (code ++ ['0']) ++ buildCodes r (code ++ ['1'])

/-- The map lookup `codes.at(ch)` (src/main.cpp:60): `none` models the
`std::out_of_range` exception thrown on a missing key. -/
def codeAt (codes : List (Char × List Char)) (c : Char) : Option (List Char) :=
  List.lookup c codes

/-- `encode` (src/main.cpp:55-63): for each character of the text, in order,
append its code looked up with `.at`; a missing key aborts the whole call
(the C++ exception discards the partial result). -/
def encode : List Char → List (Char × List Char) → Option (List Char)
  | [], _ => some []
  | c :: rest, codes =>
      match codeAt codes c with
      | none => none
      | some cd =>
          match encode rest codes with
          | none => none
          | some enc => some (cd ++ enc)

/-- The loop body of `decode` (src/main.cpp:72-83) with the walk state made
explicit: `decodeSt stream root current` returns the emitted characters
together with the final value of `current`.  Each iteration dereferences
`current` to step to a child (`'0'` goes left, anything else goes right,
exactly as the C++ `if (bit == '0') ... else ...`), then dereferences the new
`current` for the leaf test; dereferencing a null pointer is modelled by
`none`. -/
def decodeSt : List Char → Node → Node → Option (List Char × Node)
  | [], _, cur => some ([], cur)
  | bit :: rest, root, cur =>
      match cur with
      | .nil => none
      | .node _ _ l r =>
          match (if bit == '0' then l else r) with
          | .nil => none
          | .node c f nl nr =>
              if isLeaf (.node c f nl nr) then
                match decodeSt rest root root with
                | none => none
                | some (out, fin) => some (c :: out, fin)
              else
                decodeSt rest root (.node c f nl nr)

/-- `decode` (src/main.cpp:67-86): run the walk from the root and return the
accumulated characters; the final walk position is discarded without any
check (line 85 returns `result` unconditionally). -/
def decode (encoded : List Char) (root : Node) : Option (List Char) :=
  match decodeSt encoded root root with
  | none => none
  | some (out, _) => some out

/-- One step of the frequency count `freq[ch]++` (src/main.cpp:103-105) on
the association-list model of the `unordered_map`: bump an existing key or
append a fresh key with count 1. -/
def bump : List (Char × Nat) → Char → List (Char × Nat)
  | [], c => [(c, 1)]
  | (c', n) :: rest, c =>
      if c' == c then (c', n + 1) :: rest else (c', n) :: bump rest c

/-- The frequency-counting loop of `main` (src/main.cpp:102-105). -/
def countFreq (text : List Char) : List (Char × Nat) :=
  text.foldl bump []

/-- Seeding of the priority queue (src/main.cpp:112-114): one fresh leaf node
per entry of the frequency table. -/
def initQueue (fs : List (Char × Nat)) : List Node :=
  fs.map (fun p => Node.node p.1 p.2 .nil .nil)

/-- Extraction of the minimum-frequency node from a non-empty queue
`t :: ts`, following the comparator `Compare`: the head is kept when it does
not compare lower-priority than the minimum of the tail.  Among equal
frequencies the first-inserted node wins (a valid `std::priority_queue`
refinement; the spec leaves the tie order unspecified). -/
def popMin1 : Node → List Node → Node × List Node
  | t, [] => (t, [])
  | t, u :: us =>
      let p := popMin1 u us
      if Compare t p.1 then (p.1, t :: p.2) else (t, u :: us)

/-- One iteration of the merge loop (src/main.cpp:117-127): pop the two
lowest-frequency nodes `left` and `right`, push
`new Node('\0', left->freq + right->freq)` with them as children.  The `[]`
branch is unreachable: popping once from a queue of size `≥ 2` leaves a
non-empty queue. -/
def huffStep (t1 t2 : Node) (ts : List Node) : List Node :=
  let p1 := popMin1 t1 (t2 :: ts)
  match p1.2 with
  | [] => []
  | u :: us =>
      let p2 := popMin1 u us
      p2.2 ++ [Node.node nulChar (freqOf p1.1 + freqOf p2.1) p1.1 p2.1]

/-- The merge loop of `main` followed by `pq.top()` (src/main.cpp:117-129),
with an explicit fuel argument to make the recursion structural; the loop
runs at most `size − 1` times, so any fuel `≥ length − 1` is exact.  An empty
queue reaches `pq.top()` with no element: undefined behaviour, modelled as
`none`. -/
def buildLoopF : Nat → List Node → Option Node
  | _, [] => none
  | _, [t] => some t
  | 0, _ :: _ :: _ => none
  | fuel + 1, t1 :: t2 :: ts => buildLoopF fuel (huffStep t1 t2 ts)

/-- The tree construction of `main` (src/main.cpp:109-129): seeded queue,
merge loop, `pq.top()`. -/
def buildLoop (q : List Node) : Option Node :=
  buildLoopF q.length q

/-- Frequency table to Huffman root, exactly as `main` wires it
(src/main.cpp:107-129). -/
def huffmanTree (fs : List (Char × Nat)) : Option Node :=
  buildLoop (initQueue fs)

/-! Derived notions used to state the claims. -/

/-- Structural well-formedness of a (non-null) tree as the spec's §3 states
it: every node is either a leaf or has two non-null children whose
frequencies sum to its own. -/
def strictWF : Node → Bool
  | .nil => true
  | .node _ _ .nil .nil => true
  | .node _ f l r =>
      !(l == Node.nil) && !(r == Node.nil) &&
        (f == freqOf l + freqOf r) && strictWF l && strictWF r

/-- Number of leaves, with the program's leaf criterion. -/
def leafCount : Node → Nat
  | .nil => 0
  | .node _ _ .nil .nil => 1
  | .node _ _ l r => leafCount l + leafCount r

/-- Total leaf frequency of a tree, computed from the leaves only (internal
frequency fields do not enter, so the notion applies to arbitrary competitor
trees). -/
def weightL : Node → Nat
  | .nil => 0
  | .node _ f .nil .nil => f
  | .node _ _ l r => weightL l + weightL r

/-- Multiset of `(symbol, frequency)` pairs found at the leaves. -/
def leafPairs : Node → Multiset (Char × Nat)
  | .nil => 0
  | .node c f .nil .nil => {(c, f)}
  | .node _ _ l r => leafPairs l + leafPairs r

/-- Leaf symbols in depth-first left-to-right order (the order in which
`buildCodes` records them). -/
def leafChars : Node → List Char
  | .nil => []
  | .node c _ .nil .nil => [c]
  | .node _ _ l r => leafChars l ++ leafChars r

/-- A full (strict) binary tree: no null pointer anywhere except below
leaves.  This is the shape class of the competitor trees in the optimality
claim: the code trees of arbitrary binary prefix codes. -/
def fullB : Node → Bool
  | .nil => false
  | .node _ _ .nil .nil => true
  | .node _ _ l r => fullB l && fullB r

/-- Weighted path length of a tree: the sum over leaves of
`frequency × depth`.  Characterised by `cost (node l r) = cost l + cost r +
weightL l + weightL r`, since descending one level adds each leaf's
frequency once. -/
def cost : Node → Nat
  | .nil => 0
  | .node _ _ .nil .nil => 0
  | .node _ _ l r => (cost l + weightL l) + (cost r + weightL r)

/-- A walk along `p` from `cur` that stays strictly inside the tree: every
step lands on a non-null internal node (so the decoder emits nothing along
it).  Used to describe streams that end away from a symbol boundary. -/
def midWalk : Node → List Char → Bool
  | _, [] => true
  | .nil, _ :: _ => false
  | .node _ _ l r, bit :: rest =>
      let nxt := if bit == '0' then l else r
      !(nxt == Node.nil) && !isLeaf nxt && midWalk nxt rest

/-- Modelled from the spec, §4.4: the specified `encode` is the
concatenation, in input order, of each symbol's code looked up in the table,
failing (lookup error) when some symbol of the text is absent from the
table.  Used to compare the implementation against the spec's words. -/
def specEncode (text : List Char) (codes : List (Char × List Char)) :
    Option (List Char) :=
  if ∀ c ∈ text, (codeAt codes c).isSome then
    some ((text.map (fun c => (codeAt codes c).getD [])).flatten)
  else
    none

/-- The spec's weighted length, §8: sum over the frequency-table entries of
`frequency × length of the symbol's code`. -/
def wlenTable (fs : List (Char × Nat)) (codes : List (Char × List Char)) : Nat :=
  (fs.map (fun p => p.2 * ((codeAt codes p.1).getD []).length)).sum

/-! Concrete trees the program builds on boundary inputs, used in the
closed-form checks below (each equality to `huffmanTree` output is proved by
reflexivity where used). -/

/-- The single-leaf tree built for the input text `aaaa`. -/
def leafA : Node := .node 'a' 4 .nil .nil

/-- The tree built for the input text `ab`. -/
def treeAB : Node :=
  .node nulChar 2 (.node 'a' 1 .nil .nil) (.node 'b' 1 .nil .nil)

/-- The tree built for the input text `aabc` (codes: a = 0, b = 10,
c = 11). -/
def treeABC : Node :=
  .node nulChar 4 (.node 'a' 2 .nil .nil)
    (.node nulChar 2 (.node 'b' 1 .nil .nil) (.node 'c' 1 .nil .nil))

/-! Notions for the optimality claim.  A depth system assigns a codeword
length (depth) to every element of a queue of trees; the scaled Kraft sum
`kraftN D S = Σ 2^(D − depth)` equals `2^D` exactly for the systems realised
by full binary code trees over the queue.  The Huffman loop is proved
optimal against every such system, and any binary prefix-free word list
induces one. -/

/-- Scaled Kraft sum of a depth system, at scale `D` (an upper bound on all
depths). -/
def kraftN (D : Nat) (S : Multiset (Node × Nat)) : Nat :=
  (S.map (fun p => 2 ^ (D - p.2))).sum

/-- A depth system that is exactly realisable as a code tree over its
elements: depths bounded by `D` and scaled Kraft sum equal to `2^D`. -/
def SysEQ (S : Multiset (Node × Nat)) (D : Nat) : Prop :=
  (∀ p ∈ S, p.2 ≤ D) ∧ kraftN D S = 2 ^ D

/-- Cost of a depth system: every element contributes its own internal cost
plus its leaf weight times its assigned depth. -/
def sysCost (S : Multiset (Node × Nat)) : Nat :=
  (S.map (fun p => cost p.1 + weightL p.1 * p.2)).sum

/-- Pairwise prefix-incomparability of a codeword list (the defining
property of a prefix code; it also rules out duplicate words). -/
def PairwiseNP (ws : List (List Char)) : Prop :=
  ws.Pairwise (fun u v => ¬ u <+: v ∧ ¬ v <+: u)

/-- All codewords are over the binary alphabet `0`/`1`. -/
def binaryWords (ws : List (List Char)) : Prop :=
  ∀ w ∈ ws, ∀ ch ∈ w, ch = '0' ∨ ch = '1'

/-- The spec's weighted length of an arbitrary codeword assignment aligned
position-by-position with a frequency table. -/
def wSum (fs : List (Char × Nat)) (ws : List (List Char)) : Nat :=
  ((fs.zip ws).map (fun q => q.1.2 * q.2.length)).sum

/-- The codeword list a code table assigns to the symbols of a frequency
table, in table order. -/
def codeWords (fs : List (Char × Nat)) (codes : List (Char × List Char)) :
    List (List Char) :=
  fs.map (fun p => (codeAt codes p.1).getD [])

/-! Lemmas about the priority queue model. -/

theorem popMin1_length (t : Node) (ts : List Node) :
    (popMin1 t ts).2.length = ts.length := by
  induction ts generalizing t with
  | nil => rfl
  | cons u us ih =>
      simp only [popMin1]
      split
      · simpa using ih u
      · simp

theorem popMin1_perm (t : Node) (ts : List Node) :
    List.Perm (t :: ts) ((popMin1 t ts).1 :: (popMin1 t ts).2) := by
  induction ts generalizing t with
  | nil => exact List.Perm.refl _
  | cons u us ih =>
      simp only [popMin1]
      split
      · exact ((ih u).cons t).trans (List.Perm.swap _ _ _)
      · exact List.Perm.refl _

theorem popMin1_min (t : Node) (ts : List Node) :
    ∀ x ∈ t :: ts, freqOf (popMin1 t ts).1 ≤ freqOf x := by
  induction ts generalizing t with
  | nil =>
      intro x hx
      rcases List.mem_singleton.mp hx with rfl
      exact le_refl _
  | cons u us ih =>
      intro x hx
      simp only [popMin1]
      split
      case isTrue h =>
        simp only [Compare, decide_eq_true_eq] at h
        rcases List.mem_cons.mp hx with rfl | hx'
        · exact le_of_lt h
        · exact ih u x hx'
      case isFalse h =>
        simp only [Compare, decide_eq_true_eq, not_lt] at h
        rcases List.mem_cons.mp hx with rfl | hx'
        · exact le_refl _
        · exact le_trans h (ih u x hx')

/-- Characterisation of one merge-loop iteration: it extracts two nodes `a`
(a global minimum) and `b` (a minimum of the remainder), and appends the
merged internal node to the remaining queue. -/
theorem huffStep_spec (t1 t2 : Node) (ts : List Node) :
    ∃ a b q2,
      huffStep t1 t2 ts = q2 ++ [Node.node nulChar (freqOf a + freqOf b) a b] ∧
      List.Perm (t1 :: t2 :: ts) (a :: b :: q2) ∧
      (∀ x ∈ t1 :: t2 :: ts, freqOf a ≤ freqOf x) ∧
      (∀ x ∈ b :: q2, freqOf b ≤ freqOf x) := by
  have hlen := popMin1_length t1 (t2 :: ts)
  cases hrest : (popMin1 t1 (t2 :: ts)).2 with
  | nil => rw [hrest] at hlen; simp at hlen
  | cons u us =>
      refine ⟨(popMin1 t1 (t2 :: ts)).1, (popMin1 u us).1, (popMin1 u us).2,
        ?_, ?_, ?_, ?_⟩
      · simp only [huffStep, hrest]
      · have h1 := popMin1_perm t1 (t2 :: ts)
        rw [hrest] at h1
        exact h1.trans ((popMin1_perm u us).cons _)
      · exact popMin1_min t1 (t2 :: ts)
      · intro x hx
        exact popMin1_min u us x ((popMin1_perm u us).mem_iff.mpr hx)

theorem huffStep_length (t1 t2 : Node) (ts : List Node) :
    (huffStep t1 t2 ts).length = ts.length + 1 := by
  obtain ⟨a, b, q2, heq, hperm, -, -⟩ := huffStep_spec t1 t2 ts
  have := hperm.length_eq
  simp only [List.length_cons] at this
  simp [heq]
  omega

theorem buildLoopF_congr :
    ∀ (f1 f2 : Nat) (q : List Node), q.length ≤ f1 + 1 → q.length ≤ f2 + 1 →
      buildLoopF f1 q = buildLoopF f2 q := by
  intro f1
  induction f1 with
  | zero =>
      intro f2 q h1 _
      match q with
      | [] => cases f2 <;> rfl
      | [t] => cases f2 <;> rfl
      | t1 :: t2 :: ts => simp at h1
  | succ g1 ih =>
      intro f2 q h1 h2
      match q with
      | [] => cases f2 <;> rfl
      | [t] => cases f2 <;> rfl
      | t1 :: t2 :: ts =>
          match f2 with
          | 0 => simp at h2
          | g2 + 1 =>
              simp only [buildLoopF]
              apply ih g2
              · rw [huffStep_length]
                simp only [List.length_cons] at h1
                omega
              · rw [huffStep_length]
                simp only [List.length_cons] at h2
                omega

theorem buildLoop_nil : buildLoop [] = none := rfl

theorem buildLoop_single (t : Node) : buildLoop [t] = some t := rfl

theorem buildLoop_cons2 (t1 t2 : Node) (ts : List Node) :
    buildLoop (t1 :: t2 :: ts) = buildLoop (huffStep t1 t2 ts) := by
  show buildLoopF (ts.length + 2) (t1 :: t2 :: ts) = _
  simp only [buildLoopF]
  unfold buildLoop
  apply buildLoopF_congr <;> rw [huffStep_length] <;> omega

/-- Strong-induction master lemma: any property of queue elements that is
preserved by merging holds of the final root. -/
theorem buildLoop_inv (P : Node → Prop)
    (hm : ∀ a b, P a → P b → P (Node.node nulChar (freqOf a + freqOf b) a b)) :
    ∀ n q, q.length = n → (∀ x ∈ q, P x) → ∀ t, buildLoop q = some t → P t := by
  intro n
  induction n using Nat.strong_induction_on with
  | _ n ih =>
      intro q hlen hall t ht
      match q with
      | [] => rw [buildLoop_nil] at ht; cases ht
      | [x] =>
          rw [buildLoop_single] at ht
          cases ht
          exact hall t (List.mem_singleton.mpr rfl)
      | t1 :: t2 :: ts =>
          rw [buildLoop_cons2] at ht
          obtain ⟨a, b, q2, heq, hperm, -, -⟩ := huffStep_spec t1 t2 ts
          have hm' : ∀ x ∈ huffStep t1 t2 ts, P x := by
            intro x hx
            rw [heq] at hx
            rcases List.mem_append.mp hx with hx' | hx'
            · exact hall x (hperm.mem_iff.mpr (by simp [hx']))
            · rcases List.mem_singleton.mp hx' with rfl
              exact hm a b (hall a (hperm.mem_iff.mpr (by simp)))
                (hall b (hperm.mem_iff.mpr (by simp)))
          subst hlen
          exact ih (huffStep t1 t2 ts).length
            (by rw [huffStep_length]; simp) _ rfl hm' t ht

/-- Strong-induction master lemma for additive measures: any monoid-valued
function that is additive across a merge is conserved by the whole loop. -/
theorem buildLoop_sum {M : Type} [AddCommMonoid M] (f : Node → M)
    (hm : ∀ a b, a ≠ Node.nil → b ≠ Node.nil →
      f (Node.node nulChar (freqOf a + freqOf b) a b) = f a + f b) :
    ∀ n q, q.length = n → (∀ x ∈ q, x ≠ Node.nil) →
      ∀ t, buildLoop q = some t → f t = (q.map f).sum := by
  intro n
  induction n using Nat.strong_induction_on with
  | _ n ih =>
      intro q hlen hnn t ht
      match q with
      | [] => rw [buildLoop_nil] at ht; cases ht
      | [x] =>
          rw [buildLoop_single] at ht
          cases ht
          simp
      | t1 :: t2 :: ts =>
          rw [buildLoop_cons2] at ht
          obtain ⟨a, b, q2, heq, hperm, -, -⟩ := huffStep_spec t1 t2 ts
          subst hlen
          have ha : a ≠ Node.nil := hnn a (hperm.mem_iff.mpr (by simp))
          have hb : b ≠ Node.nil := hnn b (hperm.mem_iff.mpr (by simp))
          have hnn' : ∀ x ∈ huffStep t1 t2 ts, x ≠ Node.nil := by
            intro x hx
            rw [heq] at hx
            rcases List.mem_append.mp hx with hx' | hx'
            · exact hnn x (hperm.mem_iff.mpr (by simp [hx']))
            · rcases List.mem_singleton.mp hx' with rfl
              simp
          have hrec := ih (huffStep t1 t2 ts).length
            (by rw [huffStep_length]; simp) _ rfl hnn' t ht
          rw [hrec, heq]
          have hps := (hperm.map f).sum_eq
          rw [hps]
          simp [hm a b ha hb]
          abel

/-! Unfolding helpers for the tree measures on internal nodes. -/

theorem isLeaf_node_left (c : Char) (f : Nat) (l r : Node) (h : l ≠ .nil) :
    isLeaf (.node c f l r) = false := by
  cases l with
  | nil => exact absurd rfl h
  | node => rfl

theorem isLeaf_node_right (c : Char) (f : Nat) (l r : Node) (h : r ≠ .nil) :
    isLeaf (.node c f l r) = false := by
  cases l with
  | nil => cases r with
    | nil => exact absurd rfl h
    | node => rfl
  | node => rfl

theorem isLeaf_iff (c : Char) (f : Nat) (l r : Node) :
    isLeaf (.node c f l r) = true ↔ l = .nil ∧ r = .nil := by
  cases l <;> cases r <;> simp [isLeaf]

theorem node_beq_nil (c : Char) (f : Nat) (l r : Node) :
    (Node.node c f l r == Node.nil) = false := by
  simp [beq_eq_false_iff_ne]

theorem strictWF_node_ne (c : Char) (f : Nat) (l r : Node)
    (hl : l ≠ .nil) (hr : r ≠ .nil) :
    strictWF (.node c f l r) =
      ((f == freqOf l + freqOf r) && strictWF l && strictWF r) := by
  cases l <;> cases r <;> simp_all [strictWF, node_beq_nil]

theorem leafCount_node_ne (c : Char) (f : Nat) (l r : Node)
    (h : ¬(l = .nil ∧ r = .nil)) :
    leafCount (.node c f l r) = leafCount l + leafCount r := by
  cases l <;> cases r <;> simp_all [leafCount]

theorem weightL_node_ne (c : Char) (f : Nat) (l r : Node)
    (h : ¬(l = .nil ∧ r = .nil)) :
    weightL (.node c f l r) = weightL l + weightL r := by
  cases l <;> cases r <;> simp_all [weightL]

theorem leafPairs_node_ne (c : Char) (f : Nat) (l r : Node)
    (h : ¬(l = .nil ∧ r = .nil)) :
    leafPairs (.node c f l r) = leafPairs l + leafPairs r := by
  cases l <;> cases r <;> simp_all [leafPairs]

theorem leafChars_node_ne (c : Char) (f : Nat) (l r : Node)
    (h : ¬(l = .nil ∧ r = .nil)) :
    leafChars (.node c f l r) = leafChars l ++ leafChars r := by
  cases l <;> cases r <;> simp_all [leafChars]

theorem cost_node_ne (c : Char) (f : Nat) (l r : Node)
    (h : ¬(l = .nil ∧ r = .nil)) :
    cost (.node c f l r) = (cost l + weightL l) + (cost r + weightL r) := by
  cases l <;> cases r <;> simp_all [cost]

theorem fullB_node_ne (c : Char) (f : Nat) (l r : Node)
    (h : ¬(l = .nil ∧ r = .nil)) :
    fullB (.node c f l r) = (fullB l && fullB r) := by
  cases l <;> cases r <;> simp_all [fullB]

theorem buildCodes_node_ne (c : Char) (f : Nat) (l r : Node)
    (h : ¬(l = .nil ∧ r = .nil)) (pre : List Char) :
    buildCodes (.node c f l r) pre =
      buildCodes l (pre ++ ['0']) ++ buildCodes r (pre ++ ['1']) := by
  cases l <;> cases r <;> simp_all [buildCodes]

/-! Invariants of the built tree. -/

/-- Every tree the builder returns is non-null and structurally
well-formed. -/
theorem buildLoop_wf (q : List Node)
    (hq : ∀ x ∈ q, x ≠ Node.nil ∧ strictWF x = true) (t : Node)
    (ht : buildLoop q = some t) : t ≠ Node.nil ∧ strictWF t = true := by
  refine buildLoop_inv (fun x => x ≠ Node.nil ∧ strictWF x = true)
    ?_ q.length q rfl hq t ht
  intro a b ⟨ha, hwa⟩ ⟨hb, hwb⟩
  refine ⟨by simp, ?_⟩
  rw [strictWF_node_ne _ _ _ _ ha hb, hwa, hwb]
  simp

theorem huffmanTree_wf (fs : List (Char × Nat)) (t : Node)
    (ht : huffmanTree fs = some t) : t ≠ Node.nil ∧ strictWF t = true := by
  apply buildLoop_wf (initQueue fs) _ t ht
  intro x hx
  simp only [initQueue, List.mem_map] at hx
  obtain ⟨p, -, rfl⟩ := hx
  exact ⟨by simp, rfl⟩

/-- Elimination form of `strictWF` at an internal node. -/
theorem strictWF_node_elim (c : Char) (f : Nat) (l r : Node)
    (h : ¬(l = Node.nil ∧ r = Node.nil))
    (hwf : strictWF (.node c f l r) = true) :
    l ≠ Node.nil ∧ r ≠ Node.nil ∧ f = freqOf l + freqOf r ∧
      strictWF l = true ∧ strictWF r = true := by
  cases l <;> cases r <;> simp_all [strictWF]

/-- In a well-formed tree, the stored frequency of every node equals the sum
of its leaf frequencies. -/
theorem strictWF_freq_eq_weight (t : Node) (hne : t ≠ Node.nil)
    (hwf : strictWF t = true) : freqOf t = weightL t := by
  induction t with
  | nil => exact absurd rfl hne
  | node c f l r ihl ihr =>
      by_cases h : l = Node.nil ∧ r = Node.nil
      · obtain ⟨rfl, rfl⟩ := h
        rfl
      · obtain ⟨hl, hr, hf, hwl, hwr⟩ := strictWF_node_elim c f l r h hwf
        rw [weightL_node_ne c f l r h, freqOf, hf, ihl hl hwl, ihr hr hwr]

theorem initQueue_ne_nil (fs : List (Char × Nat)) :
    ∀ x ∈ initQueue fs, x ≠ Node.nil := by
  intro x hx
  simp only [initQueue, List.mem_map] at hx
  obtain ⟨p, -, rfl⟩ := hx
  simp

theorem initQueue_leafPairs_sum (fs : List (Char × Nat)) :
    ((initQueue fs).map leafPairs).sum = (fs : Multiset (Char × Nat)) := by
  induction fs with
  | nil => rfl
  | cons p ps ihp =>
      simp only [initQueue, List.map_cons, List.map_map, List.sum_cons] at *
      rw [ihp]
      show leafPairs (.node p.1 p.2 .nil .nil) + _ = _
      simp [leafPairs]

theorem initQueue_leafCount_sum (fs : List (Char × Nat)) :
    ((initQueue fs).map leafCount).sum = fs.length := by
  induction fs with
  | nil => rfl
  | cons p ps ihp =>
      simp only [initQueue, List.map_cons, List.map_map, List.sum_cons,
        List.length_cons] at *
      rw [ihp]
      show leafCount (.node p.1 p.2 .nil .nil) + _ = _
      simp [leafCount, Nat.add_comm]

/-- The builder loses no leaves: the built tree's leaf multiset is exactly
the frequency table. -/
theorem huffmanTree_leafPairs (fs : List (Char × Nat)) (t : Node)
    (ht : huffmanTree fs = some t) : leafPairs t = (fs : Multiset (Char × Nat)) := by
  have h := buildLoop_sum leafPairs
    (fun a b ha hb => leafPairs_node_ne _ _ _ _ (fun hc => ha hc.1))
    (initQueue fs).length (initQueue fs) rfl (initQueue_ne_nil fs) t ht
  rw [h, initQueue_leafPairs_sum]

/-- One leaf per frequency-table entry. -/
theorem huffmanTree_leafCount (fs : List (Char × Nat)) (t : Node)
    (ht : huffmanTree fs = some t) : leafCount t = fs.length := by
  have h := buildLoop_sum leafCount
    (fun a b ha hb => leafCount_node_ne _ _ _ _ (fun hc => ha hc.1))
    (initQueue fs).length (initQueue fs) rfl (initQueue_ne_nil fs) t ht
  rw [h, initQueue_leafCount_sum]

/-- A queue of at least two nodes merges at least once, so the final root is
an internal node. -/
theorem buildLoop_internal :
    ∀ n q, q.length = n → 2 ≤ q.length → (∀ x ∈ q, x ≠ Node.nil) →
      ∀ t, buildLoop q = some t → isLeaf t = false := by
  intro n
  induction n using Nat.strong_induction_on with
  | _ n ih =>
      intro q hlen h2 hnn t ht
      match q with
      | [] => simp at h2
      | [x] => simp at h2
      | t1 :: t2 :: ts =>
          rw [buildLoop_cons2] at ht
          obtain ⟨a, b, q2, heq, hperm, -, -⟩ := huffStep_spec t1 t2 ts
          have ha : a ≠ Node.nil := hnn a (hperm.mem_iff.mpr (by simp))
          have hnn' : ∀ x ∈ huffStep t1 t2 ts, x ≠ Node.nil := by
            intro x hx
            rw [heq] at hx
            rcases List.mem_append.mp hx with hx' | hx'
            · exact hnn x (hperm.mem_iff.mpr (by simp [hx']))
            · rcases List.mem_singleton.mp hx' with rfl
              simp
          cases hq2 : q2 with
          | nil =>
              rw [hq2] at heq
              rw [heq] at ht
              simp only [List.nil_append, buildLoop_single] at ht
              cases ht
              exact isLeaf_node_left _ _ _ _ ha
          | cons v vs =>
              subst hlen
              apply ih (huffStep t1 t2 ts).length
                (by rw [huffStep_length]; simp) _ rfl _ hnn' t ht
              rw [heq, hq2]
              simp

theorem huffmanTree_internal (fs : List (Char × Nat)) (t : Node)
    (h2 : 2 ≤ fs.length) (ht : huffmanTree fs = some t) : isLeaf t = false := by
  apply buildLoop_internal (initQueue fs).length (initQueue fs) rfl _
    (initQueue_ne_nil fs) t ht
  simp [initQueue]
  omega

/-- A non-empty queue always produces a root (the happy path never reaches
`pq.top()` on an empty queue). -/
theorem buildLoop_isSome :
    ∀ n q, q.length = n → q ≠ [] → ∃ t, buildLoop q = some t := by
  intro n
  induction n using Nat.strong_induction_on with
  | _ n ih =>
      intro q hlen hne
      match q with
      | [] => exact absurd rfl hne
      | [x] => exact ⟨x, buildLoop_single x⟩
      | t1 :: t2 :: ts =>
          rw [buildLoop_cons2]
          subst hlen
          apply ih (huffStep t1 t2 ts).length (by rw [huffStep_length]; simp) _ rfl
          have := huffStep_length t1 t2 ts
          intro hc
          rw [hc] at this
          simp at this

/-! Lemmas about the code table. -/

theorem buildCodes_pre (t : Node) :
    ∀ pre p, p ∈ buildCodes t pre → pre <+: p.2 := by
  induction t with
  | nil => intro pre p hp; simp [buildCodes] at hp
  | node c f l r ihl ihr =>
      intro pre p hp
      by_cases h : l = Node.nil ∧ r = Node.nil
      · obtain ⟨rfl, rfl⟩ := h
        simp only [buildCodes, List.mem_singleton] at hp
        subst hp
        exact List.prefix_rfl
      · rw [buildCodes_node_ne c f l r h pre] at hp
        rcases List.mem_append.mp hp with hp' | hp'
        · exact (List.prefix_append pre ['0']).trans (ihl _ p hp')
        · exact (List.prefix_append pre ['1']).trans (ihr _ p hp')

theorem buildCodes_chars (t : Node) :
    ∀ pre p, p ∈ buildCodes t pre → ∀ ch ∈ p.2, ch ∈ pre ∨ ch = '0' ∨ ch = '1' := by
  induction t with
  | nil => intro pre p hp; simp [buildCodes] at hp
  | node c f l r ihl ihr =>
      intro pre p hp ch hch
      by_cases h : l = Node.nil ∧ r = Node.nil
      · obtain ⟨rfl, rfl⟩ := h
        simp only [buildCodes, List.mem_singleton] at hp
        subst hp
        exact Or.inl hch
      · rw [buildCodes_node_ne c f l r h pre] at hp
        rcases List.mem_append.mp hp with hp' | hp'
        · rcases ihl _ p hp' ch hch with hc | hc
          · rcases List.mem_append.mp hc with hc' | hc'
            · exact Or.inl hc'
            · exact Or.inr (Or.inl (List.mem_singleton.mp hc'))
          · exact Or.inr hc
        · rcases ihr _ p hp' ch hch with hc | hc
          · rcases List.mem_append.mp hc with hc' | hc'
            · exact Or.inl hc'
            · exact Or.inr (Or.inr (List.mem_singleton.mp hc'))
          · exact Or.inr hc

/-- Codes recorded at distinct leaves are never prefixes of one another:
whenever one recorded code is a prefix of another, the two entries coincide
entirely. -/
theorem buildCodes_incomparable (t : Node) :
    ∀ pre s1 c1 s2 c2, (s1, c1) ∈ buildCodes t pre → (s2, c2) ∈ buildCodes t pre →
      c1 <+: c2 → s1 = s2 ∧ c1 = c2 := by
  induction t with
  | nil => intro pre s1 c1 s2 c2 h1; simp [buildCodes] at h1
  | node c f l r ihl ihr =>
      intro pre s1 c1 s2 c2 h1 h2 hpre
      by_cases h : l = Node.nil ∧ r = Node.nil
      · obtain ⟨rfl, rfl⟩ := h
        simp only [buildCodes, List.mem_singleton, Prod.mk.injEq] at h1 h2
        exact ⟨h1.1.trans h2.1.symm, h1.2.trans h2.2.symm⟩
      · rw [buildCodes_node_ne c f l r h pre] at h1 h2
        rcases List.mem_append.mp h1 with h1' | h1' <;>
          rcases List.mem_append.mp h2 with h2' | h2'
        · exact ihl _ _ _ _ _ h1' h2' hpre
        · exfalso
          obtain ⟨u1, hu1⟩ := (buildCodes_pre l _ _ h1').trans hpre
          obtain ⟨u2, hu2⟩ := buildCodes_pre r _ _ h2'
          have hu2' : pre ++ ['1'] ++ u2 = c2 := hu2
          rw [← hu2'] at hu1
          simp [List.append_assoc] at hu1
        · exfalso
          obtain ⟨u1, hu1⟩ := (buildCodes_pre r _ _ h1').trans hpre
          obtain ⟨u2, hu2⟩ := buildCodes_pre l _ _ h2'
          have hu2' : pre ++ ['0'] ++ u2 = c2 := hu2
          rw [← hu2'] at hu1
          simp [List.append_assoc] at hu1
        · exact ihr _ _ _ _ _ h1' h2' hpre

theorem buildCodes_keys (t : Node) :
    ∀ pre, (buildCodes t pre).map Prod.fst = leafChars t := by
  induction t with
  | nil => intro pre; rfl
  | node c f l r ihl ihr =>
      intro pre
      by_cases h : l = Node.nil ∧ r = Node.nil
      · obtain ⟨rfl, rfl⟩ := h
        rfl
      · rw [buildCodes_node_ne c f l r h pre, leafChars_node_ne c f l r h,
          List.map_append, ihl, ihr]

/-! Lemmas about the decoder. -/

theorem decodeSt_append (s2 : List Char) (root : Node) :
    ∀ s1 cur, decodeSt (s1 ++ s2) root cur =
      (decodeSt s1 root cur).bind (fun pr =>
        (decodeSt s2 root pr.2).map (fun pr2 => (pr.1 ++ pr2.1, pr2.2))) := by
  intro s1
  induction s1 with
  | nil =>
      intro cur
      cases h : decodeSt s2 root cur with
      | none => simp [decodeSt, h]
      | some pr => simp [decodeSt, h]
  | cons b rest ih =>
      intro cur
      cases cur with
      | nil => simp [decodeSt]
      | node c0 f0 l r =>
          cases hnx : (if b == '0' then l else r) with
          | nil =>
              simp only [beq_iff_eq] at hnx
              simp [decodeSt, hnx]
          | node c f nl nr =>
              simp only [beq_iff_eq] at hnx
              by_cases hleaf : isLeaf (Node.node c f nl nr) = true
              · simp only [List.cons_append, List.append_eq, decodeSt, beq_iff_eq, hnx, hleaf, if_true]
                rw [ih root]
                cases hrec : decodeSt rest root root with
                | none => simp
                | some pr =>
                    obtain ⟨o, fin⟩ := pr
                    cases h2 : decodeSt s2 root fin <;> simp [h2]
              · simp only [List.cons_append, decodeSt, beq_iff_eq, hnx, hleaf, if_false]
                exact ih _

/-- A stream that walks from `cur` through internal nodes only makes the
decoder emit nothing: it just moves the state. -/
theorem midWalk_decodeSt (root : Node) :
    ∀ p cur, midWalk cur p = true → p ≠ [] →
      ∃ fin, decodeSt p root cur = some ([], fin) := by
  intro p
  induction p with
  | nil => intro cur _ h; exact absurd rfl h
  | cons b rest ih =>
      intro cur hmw _
      cases cur with
      | nil => simp [midWalk] at hmw
      | node c0 f0 l r =>
          simp only [midWalk, Bool.and_eq_true, Bool.not_eq_true',
            beq_eq_false_iff_ne] at hmw
          obtain ⟨⟨hne, hnl⟩, hmw'⟩ := hmw
          cases hnx : (if b == '0' then l else r) with
          | nil => exact absurd hnx hne
          | node c f nl nr =>
              rw [hnx] at hnl
              simp only [decodeSt, hnx, hnl, if_false]
              cases rest with
              | nil => exact ⟨Node.node c f nl nr, rfl⟩
              | cons b2 r2 =>
                  rw [hnx] at hmw'
                  exact ih _ hmw' (by simp)

/-- On a well-formed tree whose root is internal, the decoder never
dereferences a null pointer: every walk returns normally. -/
theorem decodeSt_total (root : Node) (hwr : strictWF root = true)
    (hir : isLeaf root = false) (hnr : root ≠ Node.nil) :
    ∀ s cur, strictWF cur = true → isLeaf cur = false → cur ≠ Node.nil →
      ∃ out fin, decodeSt s root cur = some (out, fin) := by
  intro s
  induction s with
  | nil => intro cur _ _ _; exact ⟨[], cur, rfl⟩
  | cons b rest ih =>
      intro cur hwc hic hnc
      cases cur with
      | nil => exact absurd rfl hnc
      | node c0 f0 l r =>
          have hni : ¬(l = Node.nil ∧ r = Node.nil) := by
            intro hc
            obtain ⟨rfl, rfl⟩ := hc
            simp [isLeaf] at hic
          obtain ⟨hl, hr, -, hwl, hwr2⟩ := strictWF_node_elim c0 f0 l r hni hwc
          have hnxt_ne : (if b == '0' then l else r) ≠ Node.nil := by
            split <;> assumption
          have hnxt_wf : strictWF (if b == '0' then l else r) = true := by
            split <;> assumption
          cases hnx : (if b == '0' then l else r) with
          | nil => exact absurd hnx hnxt_ne
          | node c f nl nr =>
              rw [hnx] at hnxt_wf
              by_cases hleaf : isLeaf (Node.node c f nl nr) = true
              · simp only [decodeSt, hnx, hleaf, if_true]
                obtain ⟨o, fin, ho⟩ := ih root hwr hir hnr
                rw [ho]
                exact ⟨c :: o, fin, rfl⟩
              · simp only [decodeSt, hnx, hleaf, if_false]
                exact ih (Node.node c f nl nr) hnxt_wf
                  (Bool.not_eq_true _ ▸ hleaf) (by simp)

/-! Lemmas about the encoder. -/

/-- The implementation agrees with the spec's description of `encode`. -/
theorem encode_eq_specEncode (codes : List (Char × List Char)) :
    ∀ text, encode text codes = specEncode text codes := by
  intro text
  induction text with
  | nil => simp [encode, specEncode]
  | cons c rest ih =>
      cases hc : codeAt codes c with
      | none => simp [encode, specEncode, hc]
      | some cd =>
          by_cases hall : ∀ c' ∈ rest, (codeAt codes c').isSome
          · have hrest : encode rest codes =
                some ((rest.map (fun c' => (codeAt codes c').getD [])).flatten) := by
              rw [ih, specEncode, if_pos hall]
            have hall2 : ∀ c' ∈ c :: rest, (codeAt codes c').isSome := by
              intro c' hc'
              rcases List.mem_cons.mp hc' with rfl | hm
              · simp [hc]
              · exact hall c' hm
            rw [specEncode, if_pos hall2]
            simp [encode, hc, hrest]
          · have hrest : encode rest codes = none := by
              rw [ih, specEncode, if_neg hall]
            have hall2 : ¬ ∀ c' ∈ c :: rest, (codeAt codes c').isSome := by
              intro h
              exact hall (fun c' hm => h c' (List.mem_cons_of_mem c hm))
            rw [specEncode, if_neg hall2]
            simp [encode, hc, hrest]

/-- `encode` fails exactly when some character of the text has no code. -/
theorem encode_none_iff (codes : List (Char × List Char)) :
    ∀ text, encode text codes = none ↔ ∃ c ∈ text, codeAt codes c = none := by
  intro text
  induction text with
  | nil => simp [encode]
  | cons c rest ih =>
      cases hc : codeAt codes c with
      | none =>
          simp only [encode, hc]
          exact ⟨fun _ => ⟨c, by simp, hc⟩, fun _ => trivial⟩
      | some cd =>
          cases hr : encode rest codes with
          | none =>
              simp only [encode, hc, hr]
              obtain ⟨c', hc', hnone⟩ := ih.mp hr
              exact ⟨fun _ => ⟨c', by simp [hc'], hnone⟩, fun _ => trivial⟩
          | some enc =>
              simp only [encode, hc, hr]
              constructor
              · intro h; cases h
              · rintro ⟨c', hc', hnone⟩
                rcases List.mem_cons.mp hc' with rfl | hmem
                · rw [hc] at hnone; cases hnone
                · exact absurd (ih.mpr ⟨c', hmem, hnone⟩) (by rw [hr]; simp)

/-! The chain showing every character of the input has a code in the table
built from that same input. -/

theorem bump_keys_eq (c : Char) :
    ∀ acc : List (Char × Nat), (bump acc c).map Prod.fst =
      if c ∈ acc.map Prod.fst then acc.map Prod.fst
      else acc.map Prod.fst ++ [c] := by
  intro acc
  induction acc with
  | nil => simp [bump]
  | cons p rest ih =>
      obtain ⟨c', n⟩ := p
      by_cases hce : c' = c
      · subst hce
        simp [bump]
      · have hbe : (c' == c) = false := by simp [hce]
        simp only [bump, hbe, if_false, List.map_cons]
        by_cases hm : c ∈ rest.map Prod.fst
        · simp [ih, hm, Ne.symm hce]
        · simp [ih, hm, Ne.symm hce]

theorem bump_keys (c : Char) (acc : List (Char × Nat)) (x : Char)
    (hx : x ∈ acc.map Prod.fst ∨ x = c) :
    x ∈ (bump acc c).map Prod.fst := by
  rw [bump_keys_eq]
  by_cases hm : c ∈ acc.map Prod.fst
  · rw [if_pos hm]
    rcases hx with hx | rfl
    · exact hx
    · exact hm
  · rw [if_neg hm]
    rcases hx with hx | rfl
    · exact List.mem_append_left _ hx
    · exact List.mem_append_right _ (by simp)

theorem countFreq_keys_aux :
    ∀ (text : List Char) (acc : List (Char × Nat)) (c : Char),
      (c ∈ text ∨ c ∈ acc.map Prod.fst) →
      c ∈ (text.foldl bump acc).map Prod.fst := by
  intro text
  induction text with
  | nil =>
      intro acc c hc
      rcases hc with hc | hc
      · simp at hc
      · simpa using hc
  | cons t ts ih =>
      intro acc c hc
      simp only [List.foldl_cons]
      rcases hc with hc | hc
      · rcases List.mem_cons.mp hc with rfl | hmem
        · exact ih (bump acc c) c (Or.inr (bump_keys c acc c (Or.inr rfl)))
        · exact ih (bump acc t) c (Or.inl hmem)
      · exact ih (bump acc t) c (Or.inr (bump_keys t acc c (Or.inl hc)))

/-- Every character of the text is a key of its frequency table. -/
theorem countFreq_keys (text : List Char) (c : Char) (hc : c ∈ text) :
    c ∈ (countFreq text).map Prod.fst :=
  countFreq_keys_aux text [] c (Or.inl hc)

theorem mem_leafChars_of_pairs (t : Node) :
    ∀ c f, (c, f) ∈ leafPairs t → c ∈ leafChars t := by
  induction t with
  | nil => intro c f h; simp [leafPairs] at h
  | node c0 f0 l r ihl ihr =>
      intro c f h
      by_cases hn : l = Node.nil ∧ r = Node.nil
      · obtain ⟨rfl, rfl⟩ := hn
        simp only [leafPairs, Multiset.mem_singleton, Prod.mk.injEq] at h
        simp [leafChars, h.1]
      · rw [leafPairs_node_ne _ _ _ _ hn] at h
        rw [leafChars_node_ne _ _ _ _ hn, List.mem_append]
        rcases Multiset.mem_add.mp h with h' | h'
        · exact Or.inl (ihl c f h')
        · exact Or.inr (ihr c f h')

theorem lookup_of_mem_keys {β : Type} :
    ∀ (l : List (Char × β)) (c : Char), c ∈ l.map Prod.fst →
      ∃ v, List.lookup c l = some v := by
  intro l
  induction l with
  | nil => intro c hc; simp at hc
  | cons p rest ih =>
      intro c hc
      obtain ⟨k, v⟩ := p
      by_cases hk : c == k
      · exact ⟨v, by simp [List.lookup, hk]⟩
      · simp only [List.map_cons, List.mem_cons] at hc
        rcases hc with rfl | hc
        · simp at hk
        · obtain ⟨w, hw⟩ := ih c hc
          exact ⟨w, by simp [List.lookup, hk, hw]⟩

/-- The code table built from the tree of a text's frequency table contains
every character of the text. -/
theorem huffman_codes_complete (text : List Char) (t : Node)
    (ht : huffmanTree (countFreq text) = some t) :
    ∀ c ∈ text, codeAt (buildCodes t []) c ≠ none := by
  intro c hc
  have h1 : c ∈ (countFreq text).map Prod.fst := countFreq_keys text c hc
  obtain ⟨p, hp, hpc⟩ := List.mem_map.mp h1
  have h2 : (c, p.2) ∈ leafPairs t := by
    rw [huffmanTree_leafPairs (countFreq text) t ht, Multiset.mem_coe]
    have hpe : (c, p.2) = p := by rw [← hpc]
    rw [hpe]
    exact hp
  have h3 : c ∈ leafChars t := mem_leafChars_of_pairs t c p.2 h2
  rw [← buildCodes_keys t []] at h3
  obtain ⟨v, hv⟩ := lookup_of_mem_keys (buildCodes t []) c h3
  simp [codeAt, hv]

/-- The decoder's branch condition only tests whether a character is `'0'`:
normalising every other character to `'1'` leaves the walk unchanged. -/
theorem decodeSt_nonbit (root : Node) :
    ∀ s cur, decodeSt s root cur =
      decodeSt (s.map (fun c => if c = '0' then '0' else '1')) root cur := by
  intro s
  induction s with
  | nil => intro cur; rfl
  | cons b rest ih =>
      intro cur
      have hnorm : ((if b = '0' then '0' else '1') == '0') = (b == '0') := by
        by_cases hb : b = '0' <;> simp [hb]
      cases cur with
      | nil => rfl
      | node c0 f0 l r =>
          simp only [List.map_cons, decodeSt]
          rw [hnorm]
          cases hnx : (if b == '0' then l else r) with
          | nil => rfl
          | node c f nl nr =>
              by_cases hleaf : isLeaf (Node.node c f nl nr) = true
              · simp only [hleaf, if_true]
                rw [← ih root]
              · simp only [hleaf, if_false]
                exact ih _

/-! The claims. -/

/-- C1 — evaluation of the failing input: for the text `aaaa` the program
builds the single leaf, records the empty string as the code of `a`, encodes
the text to the empty stream, and decodes that stream to the empty text, so
the round-trip law fails on this input. -/
theorem aaaa_roundtrip_fails :
    huffmanTree (countFreq ['a', 'a', 'a', 'a']) = some leafA ∧
    buildCodes leafA [] = [('a', [])] ∧
    encode ['a', 'a', 'a', 'a'] (buildCodes leafA []) = some [] ∧
    decode [] leafA = some [] ∧
    ([] : List Char) ≠ ['a', 'a', 'a', 'a'] :=
  ⟨rfl, rfl, rfl, rfl, by decide⟩

/-- C2 — counterexample to the claim as stated: decoding the stream `1`
against the tree built for `aabc` ends at an internal node (not back at the
root), yet `decode` returns the normal result `some []` instead of
signalling any decode error. -/
theorem decode_offboundary_no_error :
    huffmanTree (countFreq ['a', 'a', 'b', 'c']) = some treeABC ∧
    decodeSt ['1'] treeABC treeABC =
      some ([], Node.node nulChar 2 (.node 'b' 1 .nil .nil)
        (.node 'c' 1 .nil .nil)) ∧
    Node.node nulChar 2 (Node.node 'b' 1 .nil .nil)
        (Node.node 'c' 1 .nil .nil) ≠ treeABC ∧
    decode ['1'] treeABC = some [] :=
  ⟨rfl, rfl, by decide, rfl⟩

/-- C2 (amended) — what the code actually does with a stream that does not
end on a symbol boundary: the bits of the trailing partial symbol are
silently dropped and the symbols decoded so far are returned normally; no
error is signalled. -/
theorem decode_drops_trailing_partial (root : Node) (s p out : List Char)
    (hs : decodeSt s root root = some (out, root))
    (hp : p ≠ []) (hmw : midWalk root p = true) :
    decode (s ++ p) root = some out := by
  obtain ⟨fin, hfin⟩ := midWalk_decodeSt root p root hmw hp
  simp [decode, decodeSt_append p root s root, hs, hfin]

/-- Witness for C2's amended theorem at the tree of `aabc`: the stream `01`
decodes as just `a`, its trailing `1` silently discarded. -/
theorem decode_drops_trailing_partial_witness :
    decodeSt ['0'] treeABC treeABC = some (['a'], treeABC) ∧
    midWalk treeABC ['1'] = true ∧
    decode (['0'] ++ ['1']) treeABC = some ['a'] :=
  ⟨rfl, rfl,
    decode_drops_trailing_partial treeABC ['0'] ['1'] ['a'] rfl (by decide) rfl⟩

/-- C3 — counterexample to the claim as stated: the stream `x` contains a
character that is neither `'0'` nor `'1'`, yet decode does not reject it; it
takes the right branch and returns `some [b]`. -/
theorem decode_nonbit_no_error :
    huffmanTree (countFreq ['a', 'b']) = some treeAB ∧
    decode ['x'] treeAB = some ['b'] :=
  ⟨rfl, rfl⟩

/-- C3 (amended) — what the code actually does: every character other than
`'0'` is treated exactly like `'1'` (a right transition); no format error
exists in the implementation. -/
theorem decode_nonbit_as_one (s : List Char) (root : Node) :
    decode s root =
      decode (s.map (fun c => if c = '0' then '0' else '1')) root := by
  simp [decode, decodeSt_nonbit root s root]

/-- C4 — counterexample to the claim as stated: the text `a` has one
distinct symbol (N = 1), and the recorded code of `a` is the empty string,
violating non-emptiness. -/
theorem single_symbol_code_empty :
    huffmanTree (countFreq ['a']) = some (Node.node 'a' 1 .nil .nil) ∧
    buildCodes (Node.node 'a' 1 .nil .nil) [] = [('a', [])] :=
  ⟨rfl, rfl⟩

/-- C4 (amended) — with at least two distinct symbols every recorded code is
a non-empty string over 0 and 1. -/
theorem codes_nonempty_of_two_symbols (text : List Char) (t : Node)
    (ht : huffmanTree (countFreq text) = some t)
    (h2 : 2 ≤ (countFreq text).length) :
    ∀ p ∈ buildCodes t [], p.2 ≠ [] ∧ ∀ ch ∈ p.2, ch = '0' ∨ ch = '1' := by
  intro p hp
  constructor
  · obtain ⟨hne, hwf⟩ := huffmanTree_wf _ t ht
    have hint := huffmanTree_internal _ t h2 ht
    cases t with
    | nil => exact absurd rfl hne
    | node c f l r =>
        have hni : ¬(l = Node.nil ∧ r = Node.nil) := by
          intro hc
          obtain ⟨rfl, rfl⟩ := hc
          simp [isLeaf] at hint
        rw [buildCodes_node_ne c f l r hni] at hp
        rcases List.mem_append.mp hp with hp' | hp'
        · obtain ⟨u, hu⟩ := buildCodes_pre l _ _ hp'
          intro hc
          rw [hc] at hu
          simp at hu
        · obtain ⟨u, hu⟩ := buildCodes_pre r _ _ hp'
          intro hc
          rw [hc] at hu
          simp at hu
  · intro ch hch
    rcases buildCodes_chars t [] p hp ch hch with h | h
    · simp at h
    · exact h

/-- Witness for C4's amended theorem on the text `ab`. -/
theorem codes_nonempty_of_two_symbols_witness :
    (('a', ['0']) ∈ buildCodes treeAB []) ∧
    (('a', ['0']).2 ≠ [] ∧ ∀ ch ∈ (('a', ['0']).2), ch = '0' ∨ ch = '1') :=
  ⟨by decide,
    codes_nonempty_of_two_symbols ['a', 'b'] treeAB rfl (by decide)
      ('a', ['0']) (by decide)⟩

/-- C5 — evaluation at the failing input: on the empty text the frequency
table and the queue are empty, so `pq.top()` is executed on an empty
priority queue, which has no defined result (modelled as `none`); the
claimed well-defined null root does not exist in the code, although
`buildCodes` on a null root would indeed give the empty table. -/
theorem empty_input_top_undefined :
    countFreq [] = [] ∧ initQueue [] = [] ∧ huffmanTree [] = none ∧
    buildCodes Node.nil [] = [] :=
  ⟨rfl, rfl, rfl, rfl⟩

/-- C6 — the prefix-free invariant: in any code table built from the tree of
an input text's frequency table, the codes of two distinct symbols are never
prefixes of one another. -/
theorem huffman_prefix_free (text : List Char) (t : Node) (s1 s2 : Char)
    (c1 c2 : List Char) (ht : huffmanTree (countFreq text) = some t)
    (h1 : (s1, c1) ∈ buildCodes t []) (h2 : (s2, c2) ∈ buildCodes t [])
    (hne : s1 ≠ s2) : ¬ c1 <+: c2 := fun hpre =>
  hne (buildCodes_incomparable t [] s1 c1 s2 c2 h1 h2 hpre).1

/-- Witness for C6 on the text `ab`: the code of `a` is not a prefix of the
code of `b`. -/
theorem huffman_prefix_free_witness :
    huffmanTree (countFreq ['a', 'b']) = some treeAB ∧ ¬ ['0'] <+: ['1'] :=
  ⟨rfl,
    huffman_prefix_free ['a', 'b'] treeAB 'a' 'b' ['0'] ['1'] rfl
      (by decide) (by decide) (by decide)⟩

/-- C8 — structure of the built tree: for every frequency table with at
least one entry (distinct keys), the builder returns a non-null tree in
which every internal node has two non-null children whose frequencies sum to
its own, and with exactly one leaf per table entry. -/
theorem huffman_tree_structure (fs : List (Char × Nat)) (h1 : 1 ≤ fs.length)
    (hnd : (fs.map Prod.fst).Nodup) :
    ∃ t, huffmanTree fs = some t ∧ strictWF t = true ∧ t ≠ Node.nil ∧
      leafCount t = fs.length := by
  have hne : initQueue fs ≠ [] := by
    simp only [initQueue, ne_eq, List.map_eq_nil_iff]
    intro hc
    subst hc
    simp at h1
  obtain ⟨t, ht⟩ := buildLoop_isSome (initQueue fs).length (initQueue fs) rfl hne
  have ht' : huffmanTree fs = some t := ht
  obtain ⟨hnn, hwf⟩ := huffmanTree_wf fs t ht'
  exact ⟨t, ht', hwf, hnn, huffmanTree_leafCount fs t ht'⟩

/-- Witness for C8 at the table of the text `ab`. -/
theorem huffman_tree_structure_witness :
    ∃ t, huffmanTree [('a', 1), ('b', 1)] = some t ∧ strictWF t = true ∧
      t ≠ Node.nil ∧ leafCount t = ([('a', 1), ('b', 1)] : List (Char × Nat)).length :=
  huffman_tree_structure [('a', 1), ('b', 1)] (by decide) (by decide)

/-- C9 — the encoder: it agrees with the spec's concatenation-of-codes
description, fails exactly when some character of the text is missing from
the table, and never fails on a table built from the same text's frequency
table. -/
theorem encode_spec_correct (text : List Char) (codes : List (Char × List Char)) :
    encode text codes = specEncode text codes ∧
    (encode text codes = none ↔ ∃ c ∈ text, codeAt codes c = none) ∧
    (∀ t, huffmanTree (countFreq text) = some t → codes = buildCodes t [] →
      encode text codes ≠ none) := by
  refine ⟨encode_eq_specEncode codes text, encode_none_iff codes text, ?_⟩
  intro t ht hcodes he
  obtain ⟨c, hc, hnone⟩ := (encode_none_iff codes text).mp he
  exact huffman_codes_complete text t ht c hc (hcodes ▸ hnone)

/-- Witness for C9 on the text `ab` and its own code table. -/
theorem encode_spec_correct_witness :
    encode ['a', 'b'] (buildCodes treeAB []) ≠ none :=
  (encode_spec_correct ['a', 'b'] (buildCodes treeAB [])).2.2 treeAB rfl rfl

/-- C10 — counterexample to the claim as stated: the single-leaf root built
for `aaaa` makes `decode` move `current` to a null child on the very first
bit and then dereference it in the leaf test (modelled by `none`). -/
theorem decode_single_leaf_null_deref :
    huffmanTree (countFreq ['a', 'a', 'a', 'a']) = some leafA ∧
    decode ['0'] leafA = none ∧ decode ['1'] leafA = none :=
  ⟨rfl, rfl, rfl⟩

/-- C10 (amended) — on every tree built from a table with at least two
distinct symbols, the decoder dereferences no null pointer on any stream of
0/1 characters: it always returns normally. -/
theorem decode_total_on_internal_root (text : List Char) (t : Node)
    (s : List Char) (ht : huffmanTree (countFreq text) = some t)
    (h2 : 2 ≤ (countFreq text).length)
    (hbits : ∀ c ∈ s, c = '0' ∨ c = '1') :
    ∃ out, decode s t = some out := by
  obtain ⟨hne, hwf⟩ := huffmanTree_wf _ t ht
  have hint := huffmanTree_internal _ t h2 ht
  obtain ⟨out, fin, ho⟩ := decodeSt_total t hwf hint hne s t hwf hint hne
  exact ⟨out, by simp [decode, ho]⟩

/-- Witness for C10's amended theorem on the text `ab`. -/
theorem decode_total_on_internal_root_witness :
    huffmanTree (countFreq ['a', 'b']) = some treeAB ∧
    2 ≤ (countFreq ['a', 'b']).length ∧
    ∃ out, decode ['0', '1'] treeAB = some out :=
  ⟨rfl, by decide,
    decode_total_on_internal_root ['a', 'b'] treeAB ['0', '1'] rfl (by decide)
      (by decide)⟩

/-! Depth-system lemmas for the optimality claim. -/

theorem kraftN_cons (D : Nat) (p : Node × Nat) (S : Multiset (Node × Nat)) :
    kraftN D (p ::ₘ S) = 2 ^ (D - p.2) + kraftN D S := by
  simp [kraftN]

theorem sysCost_cons (p : Node × Nat) (S : Multiset (Node × Nat)) :
    sysCost (p ::ₘ S) = (cost p.1 + weightL p.1 * p.2) + sysCost S := by
  simp [sysCost]

/-- Rescaling the Kraft sum from a tight depth bound `L` to any larger
scale. -/
theorem kraft_rescale (S : Multiset (Node × Nat)) (L D : Nat) (hLD : L ≤ D)
    (hbd : ∀ p ∈ S, p.2 ≤ L) : kraftN D S = 2 ^ (D - L) * kraftN L S := by
  unfold kraftN
  rw [← Multiset.sum_map_mul_left]
  refine congrArg Multiset.sum (Multiset.map_congr rfl ?_)
  intro p hp
  rw [← pow_add]
  congr 1
  have := hbd p hp
  omega

/-- A system with at least two elements has an element of positive depth. -/
theorem exists_depth_pos (S : Multiset (Node × Nat)) (D : Nat)
    (hok : SysEQ S D) (h2 : 2 ≤ Multiset.card S) : ∃ p ∈ S, 1 ≤ p.2 := by
  by_contra hc
  push_neg at hc
  have hall : ∀ p ∈ S, (fun q : Node × Nat => 2 ^ (D - q.2)) p = 2 ^ D := by
    intro p hp
    have := hc p hp
    simp only
    congr 1
    omega
  have hsum : kraftN D S = Multiset.card S * 2 ^ D := by
    unfold kraftN
    rw [Multiset.map_congr rfl hall]
    simp [Multiset.map_const', mul_comm]
  have hpos : 0 < 2 ^ D := pow_pos (by norm_num) D
  have := hok.2
  rw [hsum] at this
  have hcard : Multiset.card S = 1 := by
    have h1 : Multiset.card S * 2 ^ D = 1 * 2 ^ D := by omega
    exact Nat.eq_of_mul_eq_mul_right hpos h1
  omega

theorem exists_max_depth (S : Multiset (Node × Nat)) (hne : S ≠ 0) :
    ∃ L, (∃ p ∈ S, p.2 = L) ∧ ∀ p ∈ S, p.2 ≤ L := by
  induction S using Multiset.induction_on with
  | empty => exact absurd rfl hne
  | cons q T ih =>
      by_cases hT : T = 0
      · subst hT
        exact ⟨q.2, ⟨q, by simp⟩, by simp⟩
      · obtain ⟨L, ⟨p, hp, hpL⟩, hbd⟩ := ih hT
        by_cases hq : q.2 ≤ L
        · refine ⟨L, ⟨p, Multiset.mem_cons_of_mem hp, hpL⟩, ?_⟩
          intro r hr
          rcases Multiset.mem_cons.mp hr with rfl | hr'
          · exact hq
          · exact hbd r hr'
        · refine ⟨q.2, ⟨q, Multiset.mem_cons_self q T, rfl⟩, ?_⟩
          intro r hr
          rcases Multiset.mem_cons.mp hr with rfl | hr'
          · exact le_refl _
          · exact le_trans (hbd r hr') (by omega)

/-- Parity: in a tight system bounded by `L` that already has one element at
the maximal depth `L ≥ 1`, some other element also sits at depth `L` (the
scaled Kraft sum at scale `L` is even, and all shallower elements contribute
even terms). -/
theorem second_at_max (S : Multiset (Node × Nat)) (D L : Nat) (a : Node)
    (hok : SysEQ ((a, L) ::ₘ S) D) (hbd : ∀ p ∈ (a, L) ::ₘ S, p.2 ≤ L)
    (hL : 1 ≤ L) : ∃ p ∈ S, p.2 = L := by
  have hLD : L ≤ D := hok.1 (a, L) (Multiset.mem_cons_self _ _)
  have hres := kraft_rescale _ L D hLD hbd
  rw [hok.2] at hres
  have hLk : kraftN L ((a, L) ::ₘ S) = 2 ^ L := by
    have h2D : (2 : Nat) ^ D = 2 ^ (D - L) * 2 ^ L := by
      rw [← pow_add]
      congr 1
      omega
    rw [h2D] at hres
    exact (Nat.eq_of_mul_eq_mul_left (pow_pos (by norm_num) _) hres).symm
  by_contra hc
  push_neg at hc
  have heven : 2 ∣ kraftN L S := by
    apply Multiset.dvd_sum
    intro x hx
    obtain ⟨p, hp, rfl⟩ := Multiset.mem_map.mp hx
    have h1 : p.2 ≤ L := hbd p (Multiset.mem_cons_of_mem hp)
    have h2 : p.2 ≠ L := hc p hp
    exact dvd_pow_self 2 (by omega)
  rw [kraftN_cons] at hLk
  simp only [Nat.sub_self, pow_zero] at hLk
  have h2L : 2 ∣ 2 ^ L := dvd_pow_self 2 (by omega)
  omega

/-- Swapping the depths of a lighter element (at the shallower position) and
a heavier element (at the deeper position) preserves the Kraft sum and does
not increase the system cost. -/
theorem sys_swap (x y : Node) (dx dy D : Nat) (R : Multiset (Node × Nat))
    (hw : weightL x ≤ weightL y) (hd : dx ≤ dy)
    (hok : SysEQ ((x, dx) ::ₘ (y, dy) ::ₘ R) D) :
    SysEQ ((x, dy) ::ₘ (y, dx) ::ₘ R) D ∧
      sysCost ((x, dy) ::ₘ (y, dx) ::ₘ R) ≤
        sysCost ((x, dx) ::ₘ (y, dy) ::ₘ R) := by
  obtain ⟨hbd, hk⟩ := hok
  have hdyD : dy ≤ D := hbd (y, dy) (Multiset.mem_cons_of_mem (Multiset.mem_cons_self _ _))
  have hdxD : dx ≤ D := hbd (x, dx) (Multiset.mem_cons_self _ _)
  refine ⟨⟨?_, ?_⟩, ?_⟩
  · intro p hp
    rcases Multiset.mem_cons.mp hp with rfl | hp'
    · exact hdyD
    · rcases Multiset.mem_cons.mp hp' with rfl | hp''
      · exact hdxD
      · exact hbd p (Multiset.mem_cons_of_mem (Multiset.mem_cons_of_mem hp''))
  · rw [kraftN_cons, kraftN_cons] at hk ⊢
    simp only at hk ⊢
    omega
  · rw [sysCost_cons, sysCost_cons, sysCost_cons, sysCost_cons]
    simp only
    have h1 : weightL x * (dy - dx) ≤ weightL y * (dy - dx) :=
      Nat.mul_le_mul_right _ hw
    have h2 : dy - dx + dx = dy := by omega
    nlinarith [h1, h2]

/-- Merging the two minimum-weight elements, both sitting at the maximal
depth `L`, into one element at depth `L − 1` preserves the Kraft sum and the
system cost exactly. -/
theorem sys_merge (a b : Node) (ha : a ≠ Node.nil) (hb : b ≠ Node.nil)
    (L D fr : Nat) (hL : 1 ≤ L) (R : Multiset (Node × Nat))
    (hok : SysEQ ((a, L) ::ₘ (b, L) ::ₘ R) D) :
    SysEQ ((Node.node nulChar fr a b, L - 1) ::ₘ R) D ∧
      sysCost ((Node.node nulChar fr a b, L - 1) ::ₘ R) =
        sysCost ((a, L) ::ₘ (b, L) ::ₘ R) := by
  obtain ⟨hbd, hk⟩ := hok
  have hLD : L ≤ D := hbd (a, L) (Multiset.mem_cons_self _ _)
  have hni : ¬(a = Node.nil ∧ b = Node.nil) := fun hcc => ha hcc.1
  refine ⟨⟨?_, ?_⟩, ?_⟩
  · intro p hp
    rcases Multiset.mem_cons.mp hp with rfl | hp'
    · simp only
      omega
    · exact hbd p (Multiset.mem_cons_of_mem (Multiset.mem_cons_of_mem hp'))
  · rw [kraftN_cons]
    rw [kraftN_cons, kraftN_cons] at hk
    simp only at hk ⊢
    have hsub : D - (L - 1) = (D - L) + 1 := by omega
    rw [hsub, pow_succ]
    omega
  · rw [sysCost_cons, sysCost_cons, sysCost_cons]
    simp only
    rw [cost_node_ne _ _ _ _ hni, weightL_node_ne _ _ _ _ hni]
    have e1 : (weightL a + weightL b) * (L - 1) + (weightL a + weightL b) =
        (weightL a + weightL b) * L := by
      conv_rhs => rw [show L = (L - 1) + 1 by omega]
      ring
    have e2 : (weightL a + weightL b) * L = weightL a * L + weightL b * L := by
      ring
    linarith [e1, e2]

/-- Any tight system over a queue whose two minimum-weight elements are `a`
and `b` can be rearranged, without increasing cost, so that `a` and `b` both
sit at the maximal depth. -/
theorem sys_two_at_max (D : Nat) (a b : Node) (Q2 : Multiset Node)
    (S : Multiset (Node × Nat)) (hok : SysEQ S D)
    (hfst : S.map Prod.fst = a ::ₘ b ::ₘ Q2)
    (hwa : ∀ x ∈ a ::ₘ b ::ₘ Q2, weightL a ≤ weightL x)
    (hwb : ∀ x ∈ b ::ₘ Q2, weightL b ≤ weightL x) :
    ∃ W L, 1 ≤ L ∧ SysEQ ((a, L) ::ₘ (b, L) ::ₘ W) D ∧
      W.map Prod.fst = Q2 ∧
      sysCost ((a, L) ::ₘ (b, L) ::ₘ W) ≤ sysCost S := by
  have hcard : 2 ≤ Multiset.card S := by
    have hc := congrArg Multiset.card hfst
    simp only [Multiset.card_map, Multiset.card_cons] at hc
    omega
  -- split off the copy of the minimum element a
  obtain ⟨pa, hpa_mem, hpa_fst, hS1⟩ :=
    ((Multiset.map_eq_cons Prod.fst S (b ::ₘ Q2) a).mpr hfst)
  obtain ⟨a', da⟩ := pa
  simp only at hpa_fst
  subst hpa_fst
  rename' a' => a
  obtain ⟨S1, hScons⟩ : ∃ X, S = (a, da) ::ₘ X :=
    ⟨_, (Multiset.cons_erase hpa_mem).symm⟩
  have hS1fst : S1.map Prod.fst = b ::ₘ Q2 := by
    rw [hScons, Multiset.erase_cons_head] at hS1
    exact hS1
  subst hScons
  -- the maximal depth L, and its positivity
  obtain ⟨L, ⟨p0, hp0, hp0L⟩, hbdL⟩ :=
    exists_max_depth ((a, da) ::ₘ S1) (by simp)
  obtain ⟨pz, hpz, hz⟩ := exists_depth_pos ((a, da) ::ₘ S1) D hok hcard
  have hL1 : 1 ≤ L := le_trans hz (hbdL pz hpz)
  have hdaL : da ≤ L := hbdL (a, da) (Multiset.mem_cons_self _ _)
  -- Phase A: bring a to depth L
  have phaseA : ∃ TA, SysEQ ((a, L) ::ₘ TA) D ∧
      TA.map Prod.fst = b ::ₘ Q2 ∧
      (∀ p ∈ (a, L) ::ₘ TA, p.2 ≤ L) ∧
      sysCost ((a, L) ::ₘ TA) ≤ sysCost ((a, da) ::ₘ S1) := by
    by_cases hda : da = L
    · subst hda
      refine ⟨S1, hok, hS1fst, ?_, le_refl _⟩
      intro p hp
      exact hbdL p hp
    · have hp0S1 : p0 ∈ S1 := by
        rcases Multiset.mem_cons.mp hp0 with h | h
        · exfalso
          apply hda
          rw [← hp0L, h]
        · exact h
      obtain ⟨V, hVeq⟩ : ∃ X, S1 = p0 ::ₘ X :=
        ⟨_, (Multiset.cons_erase hp0S1).symm⟩
      subst hVeq
      obtain ⟨x0, d0⟩ := p0
      simp only at hp0L
      subst hp0L
      rename' d0 => L
      have hwp0 : weightL a ≤ weightL x0 := by
        apply hwa
        rw [← hS1fst]
        exact Multiset.mem_cons_of_mem
          (Multiset.mem_map_of_mem Prod.fst (Multiset.mem_cons_self _ _))
      obtain ⟨hokA, hcostA⟩ := sys_swap a x0 da L D V hwp0 hdaL hok
      refine ⟨(x0, da) ::ₘ V, hokA, ?_, ?_, hcostA⟩
      · simpa using hS1fst
      · intro p hp
        rcases Multiset.mem_cons.mp hp with rfl | hp'
        · exact le_refl _
        · rcases Multiset.mem_cons.mp hp' with rfl | hp''
          · exact hdaL
          · exact hbdL p
              (Multiset.mem_cons_of_mem (Multiset.mem_cons_of_mem hp''))
  obtain ⟨TA, hokA, hTAfst, hbdA, hcostA⟩ := phaseA
  -- Phase B: bring b to depth L
  obtain ⟨pb, hpb_mem, hpb_fst, hU⟩ :=
    ((Multiset.map_eq_cons Prod.fst TA Q2 b).mpr hTAfst)
  obtain ⟨b', db⟩ := pb
  simp only at hpb_fst
  subst hpb_fst
  rename' b' => b
  obtain ⟨U, hUeq⟩ : ∃ X, TA = (b, db) ::ₘ X :=
    ⟨_, (Multiset.cons_erase hpb_mem).symm⟩
  have hUfst : U.map Prod.fst = Q2 := by
    rw [hUeq, Multiset.erase_cons_head] at hU
    exact hU
  subst hUeq
  have hdbL : db ≤ L := hbdA (b, db) (Multiset.mem_cons_of_mem (Multiset.mem_cons_self _ _))
  by_cases hdb : db = L
  · subst hdb
    exact ⟨U, db, hL1, hokA, hUfst, hcostA⟩
  · obtain ⟨p1, hp1TA, hp1L⟩ := second_at_max ((b, db) ::ₘ U) D L a hokA hbdA hL1
    have hp1U : p1 ∈ U := by
      rcases Multiset.mem_cons.mp hp1TA with h | h
      · exfalso
        apply hdb
        rw [← hp1L, h]
      · exact h
    obtain ⟨W, hWeq⟩ : ∃ X, U = p1 ::ₘ X :=
      ⟨_, (Multiset.cons_erase hp1U).symm⟩
    subst hWeq
    obtain ⟨x1, d1⟩ := p1
    simp only at hp1L
    subst hp1L
    rename' d1 => L
    have hwp1 : weightL b ≤ weightL x1 := by
      apply hwb
      rw [← hUfst]
      exact Multiset.mem_cons_of_mem
        (Multiset.mem_map_of_mem Prod.fst (Multiset.mem_cons_self _ _))
    -- rearrange so that the pair to swap is at the head
    have hshapeB : (a, L) ::ₘ (b, db) ::ₘ (x1, L) ::ₘ W =
        (b, db) ::ₘ (x1, L) ::ₘ (a, L) ::ₘ W := by
      rw [Multiset.cons_swap ((a, L) : Node × Nat) ((b, db) : Node × Nat)]
      rw [Multiset.cons_swap ((a, L) : Node × Nat) ((x1, L) : Node × Nat)]
    rw [hshapeB] at hokA hcostA
    obtain ⟨hokB, hcostB⟩ :=
      sys_swap b x1 db L D ((a, L) ::ₘ W) hwp1 hdbL hokA
    have hshapeC : (b, L) ::ₘ (x1, db) ::ₘ (a, L) ::ₘ W =
        (a, L) ::ₘ (b, L) ::ₘ (x1, db) ::ₘ W := by
      rw [Multiset.cons_swap ((x1, db) : Node × Nat) ((a, L) : Node × Nat)]
      rw [Multiset.cons_swap ((b, L) : Node × Nat) ((a, L) : Node × Nat)]
    rw [hshapeC] at hokB hcostB
    refine ⟨(x1, db) ::ₘ W, L, hL1, hokB, ?_, le_trans hcostB hcostA⟩
    simpa using hUfst

/-- The exchange step: a tight system over a queue containing minimum-weight
elements `a` and `b` yields a tight system, of no larger cost, over the
queue with `a` and `b` replaced by their merged node. -/
theorem sys_exchange (D : Nat) (a b : Node) (ha : a ≠ Node.nil)
    (hb : b ≠ Node.nil) (Q2 : Multiset Node) (S : Multiset (Node × Nat))
    (hok : SysEQ S D) (hfst : S.map Prod.fst = a ::ₘ b ::ₘ Q2)
    (hwa : ∀ x ∈ a ::ₘ b ::ₘ Q2, weightL a ≤ weightL x)
    (hwb : ∀ x ∈ b ::ₘ Q2, weightL b ≤ weightL x) :
    ∃ S', SysEQ S' D ∧
      S'.map Prod.fst = Node.node nulChar (freqOf a + freqOf b) a b ::ₘ Q2 ∧
      sysCost S' ≤ sysCost S := by
  obtain ⟨W, L, hL1, hokW, hWfst, hcostW⟩ :=
    sys_two_at_max D a b Q2 S hok hfst hwa hwb
  obtain ⟨hokM, hcostM⟩ :=
    sys_merge a b ha hb L D (freqOf a + freqOf b) hL1 W hokW
  refine ⟨(Node.node nulChar (freqOf a + freqOf b) a b, L - 1) ::ₘ W,
    hokM, ?_, ?_⟩
  · simp [hWfst]
  · rw [hcostM]
    exact hcostW

/-- Optimality of the merge loop: the tree it builds from a queue of
well-formed trees costs no more than any tight depth system over that
queue. -/
theorem buildLoop_min_cost :
    ∀ n q, q.length = n →
      (∀ x ∈ q, x ≠ Node.nil ∧ strictWF x = true) →
      ∀ t, buildLoop q = some t → ∀ D S, SysEQ S D →
        S.map Prod.fst = (q : Multiset Node) → cost t ≤ sysCost S := by
  intro n
  induction n using Nat.strong_induction_on with
  | _ n ih =>
      intro q hlen hq t ht D S hok hfst
      match q with
      | [] => rw [buildLoop_nil] at ht; cases ht
      | [x] =>
          rw [buildLoop_single] at ht
          cases ht
          have hcard : Multiset.card S = 1 := by
            have hc := congrArg Multiset.card hfst
            simpa using hc
          obtain ⟨p, hp⟩ := Multiset.card_eq_one.mp hcard
          subst hp
          have hpx : p.1 = t := by
            have hs := hfst
            simp only [Multiset.map_singleton, Multiset.coe_singleton] at hs
            exact Multiset.singleton_inj.mp hs
          have hd0 : p.2 = 0 := by
            have hk := hok.2
            simp only [kraftN, Multiset.map_singleton, Multiset.sum_singleton] at hk
            have hdD : p.2 ≤ D := hok.1 p (by simp)
            have hinj := Nat.pow_right_injective (le_refl 2) hk
            omega
          simp [sysCost, hpx, hd0]
      | t1 :: t2 :: ts =>
          rw [buildLoop_cons2] at ht
          obtain ⟨a, b, q2, heq, hperm, hmina, hminb⟩ := huffStep_spec t1 t2 ts
          have hmem : ∀ x ∈ a :: b :: q2, x ∈ t1 :: t2 :: ts := fun x hx =>
            hperm.mem_iff.mpr hx
          have hq' : ∀ x ∈ a :: b :: q2, x ≠ Node.nil ∧ strictWF x = true :=
            fun x hx => hq x (hmem x hx)
          have ha := (hq' a (by simp)).1
          have hb := (hq' b (by simp)).1
          have hfw : ∀ x ∈ t1 :: t2 :: ts, freqOf x = weightL x := fun x hx =>
            strictWF_freq_eq_weight x (hq x hx).1 (hq x hx).2
          have hwa : ∀ x ∈ a ::ₘ b ::ₘ (q2 : Multiset Node),
              weightL a ≤ weightL x := by
            intro x hx
            have hx' : x ∈ a :: b :: q2 := by
              simpa [Multiset.mem_cons] using hx
            rw [← hfw a (hmem a (by simp)), ← hfw x (hmem x hx')]
            exact hmina x (hmem x hx')
          have hwb : ∀ x ∈ b ::ₘ (q2 : Multiset Node),
              weightL b ≤ weightL x := by
            intro x hx
            have hx' : x ∈ b :: q2 := by
              simpa [Multiset.mem_cons] using hx
            have hxq : x ∈ t1 :: t2 :: ts :=
              hmem x (List.mem_cons_of_mem a hx')
            rw [← hfw b (hmem b (by simp)), ← hfw x hxq]
            exact hminb x hx'
          have hfst' : S.map Prod.fst = a ::ₘ b ::ₘ (q2 : Multiset Node) := by
            rw [hfst, Multiset.coe_eq_coe.mpr hperm]
            simp
          obtain ⟨S', hokS', hfstS', hcostS'⟩ :=
            sys_exchange D a b ha hb (q2 : Multiset Node) S hok hfst' hwa hwb
          have hmerged : Node.node nulChar (freqOf a + freqOf b) a b ≠ Node.nil ∧
              strictWF (Node.node nulChar (freqOf a + freqOf b) a b) = true := by
            refine ⟨by simp, ?_⟩
            rw [strictWF_node_ne _ _ _ _ ha hb, (hq' a (by simp)).2,
              (hq' b (by simp)).2]
            simp
          have hq2 : ∀ x ∈ huffStep t1 t2 ts, x ≠ Node.nil ∧ strictWF x = true := by
            intro x hx
            rw [heq] at hx
            rcases List.mem_append.mp hx with hx' | hx'
            · exact hq' x (List.mem_cons_of_mem a (List.mem_cons_of_mem b hx'))
            · rcases List.mem_singleton.mp hx' with rfl
              exact hmerged
          have hfstS'' : S'.map Prod.fst = (huffStep t1 t2 ts : Multiset Node) := by
            rw [hfstS', heq]
            have hp2 : List.Perm
                (Node.node nulChar (freqOf a + freqOf b) a b :: q2)
                (q2 ++ [Node.node nulChar (freqOf a + freqOf b) a b]) :=
              (List.perm_append_singleton _ _).symm
            rw [← Multiset.coe_eq_coe.mpr hp2]
            simp
          subst hlen
          have hrec := ih (huffStep t1 t2 ts).length
            (by rw [huffStep_length]; simp) (huffStep t1 t2 ts) rfl hq2 t ht D S'
            hokS' hfstS''
          exact le_trans hrec hcostS'

/-- Tightening: a system whose scaled Kraft sum is at most `2^D` can be
deepened into one whose Kraft sum equals `2^D` exactly, without increasing
cost (repeatedly shorten a maximal depth; each step raises the Kraft sum by
the least representable amount and only lowers the cost). -/
theorem sys_tighten :
    ∀ k S D, 2 ^ D - kraftN D S = k → S ≠ 0 → (∀ p ∈ S, p.2 ≤ D) →
      kraftN D S ≤ 2 ^ D →
      ∃ S', SysEQ S' D ∧ S'.map Prod.fst = S.map Prod.fst ∧
        sysCost S' ≤ sysCost S := by
  intro k
  induction k using Nat.strong_induction_on with
  | _ k ih =>
      intro S D hk hne hbd hle
      by_cases heqk : kraftN D S = 2 ^ D
      · exact ⟨S, ⟨hbd, heqk⟩, rfl, le_refl _⟩
      · have hlt : kraftN D S < 2 ^ D := lt_of_le_of_ne hle heqk
        obtain ⟨L, ⟨p0, hp0, hp0L⟩, hbdL⟩ := exists_max_depth S hne
        have hL1 : 1 ≤ L := by
          by_contra hc
          push_neg at hc
          have hall : ∀ p ∈ S, (fun q : Node × Nat => 2 ^ (D - q.2)) p = 2 ^ D := by
            intro p hp
            have h1 := hbdL p hp
            simp only
            congr 1
            omega
          have hsum : kraftN D S = Multiset.card S * 2 ^ D := by
            unfold kraftN
            rw [Multiset.map_congr rfl hall]
            simp [Multiset.map_const', mul_comm]
          have hc1 : 0 < Multiset.card S := Multiset.card_pos.mpr hne
          have hge : 2 ^ D ≤ Multiset.card S * 2 ^ D :=
            Nat.le_mul_of_pos_left _ hc1
          omega
        obtain ⟨V, hVeq⟩ : ∃ X, S = p0 ::ₘ X :=
          ⟨_, (Multiset.cons_erase hp0).symm⟩
        subst hVeq
        obtain ⟨x0, d0⟩ := p0
        simp only at hp0L
        subst hp0L
        rename' d0 => L
        have hLD : L ≤ D := hbd (x0, L) (Multiset.mem_cons_self _ _)
        have hks : kraftN D ((x0, L - 1) ::ₘ V) =
            kraftN D ((x0, L) ::ₘ V) + 2 ^ (D - L) := by
          rw [kraftN_cons, kraftN_cons]
          simp only
          have hDL : D - (L - 1) = (D - L) + 1 := by omega
          rw [hDL, pow_succ]
          omega
        have hdvd : 2 ^ (D - L) ∣ kraftN D ((x0, L) ::ₘ V) := by
          apply Multiset.dvd_sum
          intro y hy
          obtain ⟨p, hp, rfl⟩ := Multiset.mem_map.mp hy
          apply pow_dvd_pow
          have h1 := hbdL p hp
          have h2 := hbd p hp
          omega
        have hnew_le : kraftN D ((x0, L - 1) ::ₘ V) ≤ 2 ^ D := by
          rw [hks]
          obtain ⟨m, hm⟩ := hdvd
          obtain ⟨M, hM⟩ := pow_dvd_pow 2 (show D - L ≤ D by omega)
          have hpos : 0 < 2 ^ (D - L) := pow_pos (by norm_num) _
          have hmM : m < M := by
            have h1 : 2 ^ (D - L) * m < 2 ^ (D - L) * M := by
              rw [← hm, ← hM]
              exact hlt
            exact Nat.lt_of_mul_lt_mul_left h1
          calc kraftN D ((x0, L) ::ₘ V) + 2 ^ (D - L)
              = 2 ^ (D - L) * (m + 1) := by rw [hm]; ring
            _ ≤ 2 ^ (D - L) * M := Nat.mul_le_mul_left _ (by omega)
            _ = 2 ^ D := hM.symm
        have hbd2 : ∀ p ∈ (x0, L - 1) ::ₘ V, p.2 ≤ D := by
          intro p hp
          rcases Multiset.mem_cons.mp hp with rfl | hp'
          · simp only
            omega
          · exact hbd p (Multiset.mem_cons_of_mem hp')
        have hne2 : ((x0, L - 1) ::ₘ V : Multiset (Node × Nat)) ≠ 0 := by
          simp
        have hpos : 0 < 2 ^ (D - L) := pow_pos (by norm_num) _
        have hdec : 2 ^ D - kraftN D ((x0, L - 1) ::ₘ V) < k := by
          rw [hks]
          omega
        obtain ⟨S', hok', hfst', hcost'⟩ :=
          ih _ hdec ((x0, L - 1) ::ₘ V) D rfl hne2 hbd2 hnew_le
        refine ⟨S', hok', ?_, ?_⟩
        · rw [hfst']
          simp
        · apply le_trans hcost'
          rw [sysCost_cons, sysCost_cons]
          simp only
          have hmono : weightL x0 * (L - 1) ≤ weightL x0 * L :=
            Nat.mul_le_mul_left _ (by omega)
          omega

/-- Kraft inequality for prefix-free binary word lists: with all lengths at
most `D`, the scaled sum `Σ 2^(D − length)` is at most `2^D`.  Induction on
`D`, splitting the words by their first bit. -/
theorem words_kraft :
    ∀ D (ws : List (List Char)), (∀ w ∈ ws, w.length ≤ D) →
      PairwiseNP ws → binaryWords ws →
      (ws.map (fun w => 2 ^ (D - w.length))).sum ≤ 2 ^ D := by
  intro D
  induction D with
  | zero =>
      intro ws hlen hpf hbin
      match ws with
      | [] => simp
      | [w] => simp
      | w1 :: w2 :: rest =>
          exfalso
          have h1 : w1 = [] :=
            List.eq_nil_of_length_eq_zero (Nat.le_zero.mp (hlen w1 (by simp)))
          have h2 : w2 = [] :=
            List.eq_nil_of_length_eq_zero (Nat.le_zero.mp (hlen w2 (by simp)))
          have hrel := List.rel_of_pairwise_cons hpf (show w2 ∈ w2 :: rest by simp)
          exact hrel.1 (by rw [h1, h2])
  | succ D ihD =>
      intro ws hlen hpf hbin
      match ws with
      | [] => simp
      | [w] =>
          simp only [List.map_cons, List.map_nil, List.sum_cons, List.sum_nil,
            Nat.add_zero]
          exact Nat.pow_le_pow_right (by norm_num) (by omega)
      | w1 :: w2 :: rest =>
          have hne : ∀ w ∈ w1 :: w2 :: rest, w ≠ [] := by
            intro w hw hwnil
            rcases List.mem_cons.mp hw with rfl | hw'
            · have hrel := List.rel_of_pairwise_cons hpf
                (show w2 ∈ w2 :: rest by simp)
              subst hwnil
              exact hrel.1 (List.nil_prefix)
            · have hrel := List.rel_of_pairwise_cons hpf hw'
              subst hwnil
              exact hrel.2 (List.nil_prefix)
          have hshape : ∀ w ∈ w1 :: w2 :: rest,
              (∃ t, w = '0' :: t) ∨ (∃ t, w = '1' :: t) := by
            intro w hw
            cases w with
            | nil => exact absurd rfl (hne [] hw)
            | cons c t =>
                rcases hbin (c :: t) hw c (by simp) with rfl | rfl
                · exact Or.inl ⟨t, rfl⟩
                · exact Or.inr ⟨t, rfl⟩
          -- split by the first bit
          have hperm := List.filter_append_perm
            (fun w : List Char => decide (w.head? = some '0')) (w1 :: w2 :: rest)
          have hsum := (hperm.map (fun w : List Char =>
            2 ^ (D + 1 - w.length))).sum_eq
          rw [← hsum, List.map_append, List.sum_append]
          have hclass : ∀ (p : List Char → Bool) (hd : Char),
              (∀ w ∈ (w1 :: w2 :: rest).filter p, w = hd :: w.tail) →
              (((w1 :: w2 :: rest).filter p).map
                (fun w : List Char => 2 ^ (D + 1 - w.length))).sum ≤ 2 ^ D := by
            intro p hd hforms
            have hmc : ((w1 :: w2 :: rest).filter p).map
                  (fun w : List Char => 2 ^ (D + 1 - w.length)) =
                (((w1 :: w2 :: rest).filter p).map List.tail).map
                  (fun t : List Char => 2 ^ (D - t.length)) := by
              rw [List.map_map]
              refine List.map_congr_left ?_
              intro w hw
              have hwf := hforms w hw
              simp only [Function.comp]
              congr 1
              rw [hwf]
              simp
            rw [hmc]
            apply ihD
            · intro t ht
              obtain ⟨w, hw, rfl⟩ := List.mem_map.mp ht
              have hwl := hlen w (List.mem_of_mem_filter hw)
              have := hforms w hw
              rw [this]
              simp at hwl ⊢
              omega
            · rw [PairwiseNP, List.pairwise_map]
              have hsubl : ((w1 :: w2 :: rest).filter p).Pairwise
                  (fun u v => ¬u <+: v ∧ ¬v <+: u) :=
                List.Pairwise.filter p hpf
              refine hsubl.imp_of_mem ?_
              intro u v hu hv huv
              have hfu := hforms u hu
              have hfv := hforms v hv
              constructor
              · intro hpre
                apply huv.1
                rw [hfu, hfv]
                exact (List.cons_prefix_cons).mpr ⟨rfl, hpre⟩
              · intro hpre
                apply huv.2
                rw [hfu, hfv]
                exact (List.cons_prefix_cons).mpr ⟨rfl, hpre⟩
            · intro t ht ch hch
              obtain ⟨w, hw, rfl⟩ := List.mem_map.mp ht
              have hwm := List.mem_of_mem_filter hw
              refine hbin w hwm ch ?_
              exact List.mem_of_mem_tail hch
          have h0 : ∀ w ∈ (w1 :: w2 :: rest).filter
              (fun w : List Char => decide (w.head? = some '0')),
              w = '0' :: w.tail := by
            intro w hw
            have hp := List.of_mem_filter hw
            simp only [decide_eq_true_eq] at hp
            cases w with
            | nil => simp at hp
            | cons c t =>
                simp only [List.head?_cons, Option.some.injEq] at hp
                rw [hp]
                rfl
          have h1 : ∀ w ∈ (w1 :: w2 :: rest).filter
              (fun w : List Char => !decide (w.head? = some '0')),
              w = '1' :: w.tail := by
            intro w hw
            have hp := List.of_mem_filter hw
            simp only [Bool.not_eq_true', decide_eq_false_iff_not] at hp
            have hwm := List.mem_of_mem_filter hw
            rcases hshape w hwm with ⟨t, rfl⟩ | ⟨t, rfl⟩
            · simp at hp
            · rfl
          have hb0 := hclass (fun w : List Char => decide (w.head? = some '0')) '0' h0
          have hb1 := hclass (fun w : List Char => !decide (w.head? = some '0')) '1' h1
          have : (2 : Nat) ^ (D + 1) = 2 ^ D + 2 ^ D := by
            rw [pow_succ]
            omega
          omega

/-! Bridges between the tree cost, the code table and word lists. -/

theorem lookup_append_left {β : Type} :
    ∀ (l1 l2 : List (Char × β)) (c : Char), c ∈ l1.map Prod.fst →
      List.lookup c (l1 ++ l2) = List.lookup c l1 := by
  intro l1
  induction l1 with
  | nil => intro l2 c hc; simp at hc
  | cons p rest ih =>
      intro l2 c hc
      obtain ⟨k, v⟩ := p
      by_cases hk : c == k
      · simp [List.lookup, hk]
      · simp only [List.map_cons, List.mem_cons] at hc
        rcases hc with rfl | hc'
        · simp at hk
        · simp only [List.cons_append, List.lookup, hk]
          exact ih l2 c hc'

theorem lookup_append_right {β : Type} :
    ∀ (l1 l2 : List (Char × β)) (c : Char), c ∉ l1.map Prod.fst →
      List.lookup c (l1 ++ l2) = List.lookup c l2 := by
  intro l1
  induction l1 with
  | nil => intro l2 c _; rfl
  | cons p rest ih =>
      intro l2 c hc
      obtain ⟨k, v⟩ := p
      simp only [List.map_cons, List.mem_cons, not_or] at hc
      have hk : (c == k) = false := by
        simp [hc.1]
      simp only [List.cons_append, List.lookup, hk]
      exact ih l2 c hc.2

theorem lookup_mem {β : Type} :
    ∀ (l : List (Char × β)) (c : Char) (v : β),
      List.lookup c l = some v → (c, v) ∈ l := by
  intro l
  induction l with
  | nil => intro c v h; simp [List.lookup] at h
  | cons p rest ih =>
      intro c v h
      obtain ⟨k, b⟩ := p
      by_cases hk : (c == k) = true
      · simp only [List.lookup, hk] at h
        cases h
        simp only [beq_iff_eq] at hk
        subst hk
        exact List.mem_cons_self _ _
      · have hk' : (c == k) = false := by simpa using hk
        simp only [List.lookup, hk'] at h
        exact List.mem_cons_of_mem _ (ih c v h)

/-- The spec's weighted sum over a tree's leaves, using the codes of
`buildCodes`, equals the tree cost shifted by the accumulated prefix. -/
theorem wlen_leafPairs (t : Node) :
    ∀ pre, (leafChars t).Nodup →
      ((leafPairs t).map (fun p =>
        p.2 * ((codeAt (buildCodes t pre) p.1).getD []).length)).sum =
      cost t + weightL t * pre.length := by
  induction t with
  | nil => intro pre _; simp [leafPairs, cost, weightL]
  | node c f l r ihl ihr =>
      intro pre hnd
      by_cases h : l = Node.nil ∧ r = Node.nil
      · obtain ⟨rfl, rfl⟩ := h
        simp [leafPairs, cost, weightL, buildCodes, codeAt, List.lookup]
      · rw [leafPairs_node_ne c f l r h, buildCodes_node_ne c f l r h,
          cost_node_ne c f l r h, weightL_node_ne c f l r h]
        rw [leafChars_node_ne c f l r h, List.nodup_append] at hnd
        obtain ⟨hndl, hndr, hdisj⟩ := hnd
        rw [Multiset.map_add, Multiset.sum_add]
        have hmapl : (leafPairs l).map (fun p =>
            p.2 * ((codeAt (buildCodes l (pre ++ ['0']) ++
              buildCodes r (pre ++ ['1'])) p.1).getD []).length) =
            (leafPairs l).map (fun p =>
              p.2 * ((codeAt (buildCodes l (pre ++ ['0'])) p.1).getD []).length) := by
          refine Multiset.map_congr rfl ?_
          intro p hp
          have hcl : p.1 ∈ (buildCodes l (pre ++ ['0'])).map Prod.fst := by
            rw [buildCodes_keys]
            exact mem_leafChars_of_pairs l p.1 p.2 (by simpa using hp)
          rw [codeAt, lookup_append_left _ _ _ hcl]
          rfl
        have hmapr : (leafPairs r).map (fun p =>
            p.2 * ((codeAt (buildCodes l (pre ++ ['0']) ++
              buildCodes r (pre ++ ['1'])) p.1).getD []).length) =
            (leafPairs r).map (fun p =>
              p.2 * ((codeAt (buildCodes r (pre ++ ['1'])) p.1).getD []).length) := by
          refine Multiset.map_congr rfl ?_
          intro p hp
          have hcr : p.1 ∈ leafChars r :=
            mem_leafChars_of_pairs r p.1 p.2 (by simpa using hp)
          have hnotl : p.1 ∉ (buildCodes l (pre ++ ['0'])).map Prod.fst := by
            rw [buildCodes_keys]
            intro hcl
            exact (hdisj hcl) hcr
          rw [codeAt, lookup_append_right _ _ _ hnotl]
          rfl
        rw [hmapl, hmapr, ihl (pre ++ ['0']) hndl, ihr (pre ++ ['1']) hndr]
        simp only [List.length_append, List.length_singleton]
        ring

theorem leafPairs_fst (t : Node) :
    (leafPairs t).map Prod.fst = (leafChars t : Multiset Char) := by
  induction t with
  | nil => rfl
  | node c f l r ihl ihr =>
      by_cases h : l = Node.nil ∧ r = Node.nil
      · obtain ⟨rfl, rfl⟩ := h
        rfl
      · rw [leafPairs_node_ne c f l r h, leafChars_node_ne c f l r h,
          Multiset.map_add, ihl, ihr]
        simp

/-- With distinct table keys, the leaf symbols of the built tree are
pairwise distinct. -/
theorem leafChars_nodup (fs : List (Char × Nat)) (t : Node)
    (hnd : (fs.map Prod.fst).Nodup) (ht : huffmanTree fs = some t) :
    (leafChars t).Nodup := by
  rw [← Multiset.coe_nodup, ← leafPairs_fst, huffmanTree_leafPairs fs t ht]
  simpa using hnd

/-- The spec's weighted length of the built code table is the weighted path
length of the built tree. -/
theorem huffman_cost_bridge (fs : List (Char × Nat)) (t : Node)
    (hnd : (fs.map Prod.fst).Nodup) (ht : huffmanTree fs = some t) :
    wlenTable fs (buildCodes t []) = cost t := by
  have hch := leafChars_nodup fs t hnd ht
  have hlp := huffmanTree_leafPairs fs t ht
  have hw := wlen_leafPairs t [] hch
  unfold wlenTable
  have hms : (fs.map (fun p =>
        p.2 * ((codeAt (buildCodes t []) p.1).getD []).length)).sum =
      ((leafPairs t).map (fun p =>
        p.2 * ((codeAt (buildCodes t []) p.1).getD []).length)).sum := by
    rw [hlp]
    simp
  rw [hms, hw]
  simp

/-- Every key of the frequency table has an entry in the built code
table. -/
theorem huffman_table_keys (fs : List (Char × Nat)) (t : Node)
    (ht : huffmanTree fs = some t) (c : Char) (hc : c ∈ fs.map Prod.fst) :
    ∃ v, codeAt (buildCodes t []) c = some v ∧ (c, v) ∈ buildCodes t [] := by
  obtain ⟨p, hp, rfl⟩ := List.mem_map.mp hc
  have h2 : (p.1, p.2) ∈ leafPairs t := by
    rw [huffmanTree_leafPairs fs t ht, Multiset.mem_coe]
    simpa using hp
  have h3 : p.1 ∈ leafChars t := mem_leafChars_of_pairs t p.1 p.2 h2
  rw [← buildCodes_keys t []] at h3
  obtain ⟨v, hv⟩ := lookup_of_mem_keys (buildCodes t []) p.1 h3
  exact ⟨v, hv, lookup_mem _ _ _ hv⟩

theorem wSum_codeWords (fs : List (Char × Nat)) (codes : List (Char × List Char)) :
    wSum fs (codeWords fs codes) = wlenTable fs codes := by
  unfold wSum codeWords wlenTable
  induction fs with
  | nil => rfl
  | cons p ps ih =>
      simp only [List.map_cons, List.zip_cons_cons, List.sum_cons]
      rw [ih]

theorem le_foldr_max : ∀ (l : List Nat) (x : Nat), x ∈ l → x ≤ l.foldr max 0 := by
  intro l
  induction l with
  | nil => intro x hx; simp at hx
  | cons a as ih =>
      intro x hx
      rcases List.mem_cons.mp hx with rfl | hx'
      · simp only [List.foldr_cons]
        exact le_max_left _ _
      · simp only [List.foldr_cons]
        exact le_trans (ih x hx') (le_max_right _ _)

/-- Cost of the leaf/length system built from a word assignment. -/
theorem sysCost_init_zip :
    ∀ (fs : List (Char × Nat)) (ws : List (List Char)),
      fs.length = ws.length →
      sysCost (((initQueue fs).zip (ws.map List.length) : List (Node × Nat)) :
          Multiset (Node × Nat)) = wSum fs ws := by
  intro fs
  induction fs with
  | nil => intro ws _; rfl
  | cons p ps ih =>
      intro ws hlen
      cases ws with
      | nil => simp at hlen
      | cons w ws' =>
          have hrec := ih ws' (by simpa using hlen)
          show sysCost ↑(((Node.node p.1 p.2 .nil .nil) :: initQueue ps).zip
            (w.length :: ws'.map List.length)) = _
          rw [List.zip_cons_cons, ← Multiset.cons_coe, sysCost_cons, hrec]
          simp [cost, weightL, wSum]

/-- C7 — weighted length optimality: for every frequency table (with
distinct keys) the weighted length of the built code table is exactly the
minimum of `Σ frequency × codeword length` over all binary prefix codes for
that table (codeword lists over 0/1, pairwise prefix-incomparable, one word
per table entry); in particular, for the input `abracadabra` the encoded
stream has exactly 23 bits. -/
theorem huffman_optimal (fs : List (Char × Nat)) (t : Node)
    (hnd : (fs.map Prod.fst).Nodup) (ht : huffmanTree fs = some t) :
    IsLeast {n : Nat | ∃ ws : List (List Char), ws.length = fs.length ∧
        PairwiseNP ws ∧ binaryWords ws ∧ n = wSum fs ws}
      (wlenTable fs (buildCodes t [])) ∧
    ((huffmanTree (countFreq ("abracadabra".toList))).bind
        (fun ta => encode ("abracadabra".toList) (buildCodes ta []))).map
      List.length = some 23 := by
  constructor
  · constructor
    · -- the built table's own words form a binary prefix code of this value
      refine ⟨codeWords fs (buildCodes t []), by simp [codeWords], ?_, ?_,
        (wSum_codeWords fs _).symm⟩
      · unfold PairwiseNP codeWords
        rw [List.pairwise_map]
        have hndp : fs.Pairwise (fun p q => p.1 ≠ q.1) :=
          List.pairwise_map.mp hnd
        refine hndp.imp_of_mem ?_
        intro p q hp hq hne
        obtain ⟨vp, hvp, hmp⟩ :=
          huffman_table_keys fs t ht p.1 (List.mem_map_of_mem Prod.fst hp)
        obtain ⟨vq, hvq, hmq⟩ :=
          huffman_table_keys fs t ht q.1 (List.mem_map_of_mem Prod.fst hq)
        rw [hvp, hvq]
        simp only [Option.getD_some]
        constructor
        · intro hpre
          exact hne (buildCodes_incomparable t [] p.1 vp q.1 vq hmp hmq hpre).1
        · intro hpre
          exact hne
            (buildCodes_incomparable t [] q.1 vq p.1 vp hmq hmp hpre).1.symm
      · intro w hw ch hch
        simp only [codeWords, List.mem_map] at hw
        obtain ⟨p, hp, rfl⟩ := hw
        obtain ⟨vp, hvp, hmp⟩ :=
          huffman_table_keys fs t ht p.1 (List.mem_map_of_mem Prod.fst hp)
        rw [hvp] at hch
        simp only [Option.getD_some] at hch
        rcases buildCodes_chars t [] (p.1, vp) hmp ch hch with h | h
        · simp at h
        · exact h
    · -- lower bound against any binary prefix code
      rintro n ⟨ws, hwlen, hpf, hbin, rfl⟩
      have hfs_ne : fs ≠ [] := by
        intro hc
        subst hc
        cases ht
      set D := (ws.map List.length).foldr max 0 with hD
      have hlenD : ∀ w ∈ ws, w.length ≤ D := fun w hw =>
        le_foldr_max _ _ (List.mem_map_of_mem List.length hw)
      have hlen_eq : (initQueue fs).length = (ws.map List.length).length := by
        simp [initQueue, hwlen]
      have hfst0 : (((initQueue fs).zip (ws.map List.length) :
            List (Node × Nat)) : Multiset (Node × Nat)).map Prod.fst =
          (initQueue fs : Multiset Node) := by
        rw [Multiset.map_coe, List.map_fst_zip _ _ (le_of_eq hlen_eq)]
      have hkraft : kraftN D (((initQueue fs).zip (ws.map List.length) :
            List (Node × Nat)) : Multiset (Node × Nat)) =
          (ws.map (fun w => 2 ^ (D - w.length))).sum := by
        unfold kraftN
        rw [Multiset.map_coe, Multiset.sum_coe]
        rw [show ((initQueue fs).zip (ws.map List.length)).map
              (fun p : Node × Nat => 2 ^ (D - p.2)) =
            (((initQueue fs).zip (ws.map List.length)).map Prod.snd).map
              (fun d => 2 ^ (D - d)) by rw [List.map_map]; rfl]
        rw [List.map_snd_zip _ _ (le_of_eq hlen_eq.symm), List.map_map]
        rfl
      have hbd0 : ∀ p ∈ (((initQueue fs).zip (ws.map List.length) :
            List (Node × Nat)) : Multiset (Node × Nat)), p.2 ≤ D := by
        intro p hp
        rw [Multiset.mem_coe] at hp
        obtain ⟨p1, p2⟩ := p
        obtain ⟨-, h2⟩ := List.of_mem_zip hp
        obtain ⟨w, hw, rfl⟩ := List.mem_map.mp h2
        exact hlenD w hw
      have hle0 : kraftN D (((initQueue fs).zip (ws.map List.length) :
            List (Node × Nat)) : Multiset (Node × Nat)) ≤ 2 ^ D := by
        rw [hkraft]
        exact words_kraft D ws hlenD hpf hbin
      have hne0 : ((((initQueue fs).zip (ws.map List.length) :
            List (Node × Nat))) : Multiset (Node × Nat)) ≠ 0 := by
        rw [Ne, Multiset.coe_eq_zero]
        intro hc
        have hlz := congrArg List.length hc
        rw [List.length_zip] at hlz
        simp only [List.length_nil] at hlz
        rw [← hlen_eq, min_self] at hlz
        have hfl : fs.length = 0 := by simpa [initQueue] using hlz
        exact hfs_ne (List.eq_nil_of_length_eq_zero hfl)
      obtain ⟨S', hok', hfst', hcost'⟩ :=
        sys_tighten _ _ D rfl hne0 hbd0 hle0
      have hmain := buildLoop_min_cost (initQueue fs).length (initQueue fs) rfl
        (fun x hx => ⟨(initQueue_ne_nil fs x hx), by
          simp only [initQueue, List.mem_map] at hx
          obtain ⟨p, -, rfl⟩ := hx
          rfl⟩) t ht D S' hok' (by rw [hfst', hfst0])
      rw [huffman_cost_bridge fs t hnd ht]
      calc cost t ≤ sysCost S' := hmain
        _ ≤ sysCost _ := hcost'
        _ = wSum fs ws := sysCost_init_zip fs ws (by simp [initQueue, hwlen])
  · decide

/-- Witness for C7 at the table of the text `ab`. -/
theorem huffman_optimal_witness :
    (([('a', 1), ('b', 1)] : List (Char × Nat)).map Prod.fst).Nodup ∧
    huffmanTree [('a', 1), ('b', 1)] = some treeAB ∧
    (IsLeast {n : Nat | ∃ ws : List (List Char),
        ws.length = ([('a', 1), ('b', 1)] : List (Char × Nat)).length ∧
        PairwiseNP ws ∧ binaryWords ws ∧
        n = wSum [('a', 1), ('b', 1)] ws}
      (wlenTable [('a', 1), ('b', 1)] (buildCodes treeAB [])) ∧
    ((huffmanTree (countFreq ("abracadabra".toList))).bind
        (fun ta => encode ("abracadabra".toList) (buildCodes ta []))).map
      List.length = some 23) :=
  ⟨by decide, rfl, huffman_optimal [('a', 1), ('b', 1)] treeAB (by decide) rfl⟩

end Huffman

